import Mathlib

/-!
Verification of the rule evaluation core of elastalert
(src/elastalert/ruletypes.py) against its natural-language specification.

The shallow embedding models:
  - Python values occurring in events as the inductive type Value;
    moments (datetimes) are modelled as integers, durations (timedeltas)
    as integers, so that subtraction and comparison are faithful;
  - events (Python dicts) as association lists from field name to Value;
  - EventWindow as a chronological list of (event, count) entries with
    the exact append, append_middle and eviction logic of the source;
  - each rule type (Frequency, Flatline, Spike, Change, Any) as a state
    record plus transition functions translated line by line from the
    source; Python exceptions raised by add_count_data are modelled with
    Except.
-/

namespace ElastAlert

/-- Python values stored in events: null, integers, strings, and moments
(datetime objects, modelled as integer timestamps). -/
inductive Value : Type where
  | vnull : Value
  | vint : Int → Value
  | vstr : String → Value
  | vtime : Int → Value
deriving DecidableEq, Repr

/-- An event is a Python dict from field name to value, modelled as an
association list (first binding wins on lookup, as dict has unique keys). -/
abbrev Event := List (String × Value)

/-- An EventWindow entry: a pair of an event and a count. -/
abbrev Entry := Event × Int

/-- Partition keys: the result of hashable(lookup_es_key(event, query_key)),
which may be Python None (modelled as Option.none), or the literal string
key all. -/
abbrev Key := Option Value

/-- The sentinel key used when no query_key is configured. -/
def kall : Key := some (Value.vstr "all")

/-! ### Association list primitives modelling Python dict operations -/

/-- Python dict lookup: first binding for the key, if any. -/
def lookupA {κ α : Type} [DecidableEq κ] : List (κ × α) → κ → Option α
  | [], _ => none
  | kv :: rest, k => if kv.1 = k then some kv.2 else lookupA rest k

/-- Python dict assignment: replace the binding in place, or append a new
binding at the end. -/
def insertA {κ α : Type} [DecidableEq κ] : List (κ × α) → κ → α → List (κ × α)
  | [], k, v => [(k, v)]
  | kv :: rest, k, v => if kv.1 = k then (k, v) :: rest else kv :: insertA rest k v

/-- Python dict pop (del): remove the binding for the key, if present. -/
def removeA {κ α : Type} [DecidableEq κ] : List (κ × α) → κ → List (κ × α)
  | [], _ => []
  | kv :: rest, k => if kv.1 = k then rest else kv :: removeA rest k

/-- Python dict setdefault restricted to its effect on the dict: insert the
default when the key is absent. -/
def setdefaultA {κ α : Type} [DecidableEq κ] (m : List (κ × α)) (k : κ) (v : α) :
    List (κ × α) :=
  if (lookupA m k).isSome then m else m ++ [(k, v)]

/-- Raw dict access on an event (used for containment tests and .get). -/
def lookupRaw (ev : Event) (field : String) : Option Value := lookupA ev field

/-- Modelled from the spec: the external field lookup utility
lookup_es_key (util.py, not under src/). It returns None both when the
field is missing and when it holds a JSON null, which the model collapses
to Option.none. Dotted-path traversal is out of scope per the spec. -/
def lookupES (ev : Event) (field : String) : Option Value :=
  match lookupA ev field with
  | some Value.vnull => none
  | r => r

/-- Dict assignment on an event field. -/
def setField (ev : Event) (field : String) (v : Value) : Event := insertA ev field v

/-- Reads a moment out of an optional value; non-moment values yield the
junk timestamp 0 (the driver guarantees the timestamp field holds a
moment, so theorems never depend on the junk case). -/
def valTs : Option Value → Int
  | some (Value.vtime t) => t
  | _ => 0

/-- The timestamp of an event under the configured timestamp field. -/
def evTs (field : String) (ev : Event) : Int := valTs (lookupRaw ev field)

/-- The timestamp accessor of EventWindow for rules: get_ts of an entry is
entry[0][ts_field]. -/
def entryTs (field : String) (en : Entry) : Int := evTs field en.1

/-- Junk entry used as the default of getLastD; reachable states never
have an empty window where the newest entry is read (claim C10). -/
def dummyEntry : Entry := ([], 0)

/-! ### EventWindow

The window is a deque of entries. The operations are translated from
EventWindow.append, EventWindow.append_middle, EventWindow.duration and
EventWindow.count. The on-removed callback is modelled by returning the
list of evicted entries in eviction order; the caller decides what to do
with them (SpikeRule feeds them to the reference window). -/

/-- duration(): timestamp of the last entry minus timestamp of the first,
zero for the empty window. -/
def durL {α : Type} (ts : α → Int) : List α → Int
  | [] => 0
  | x :: xs => ts (xs.getLastD x) - ts x

/-- count(): the sum of the count fields of all entries. -/
def countL (l : List Entry) : Int := (l.map (fun e => e.2)).sum

/-- append_middle: if the incoming timestamp is strictly earlier than the
head, prepend; otherwise rotate entries off the tail while their
timestamp is strictly greater than the incoming one, append, and rotate
back. The rotation loop of the source is equivalently expressed with
takeWhile and dropWhile on the reversed deque; the defensive cap of the
source (give up after a full rotation, leaving the deque unchanged) is
the branch where dropWhile consumes everything. -/
def append_middle {α : Type} (ts : α → Int) (e : α) : List α → List α
  | [] => [e]
  | x :: xs =>
    if ts e < ts x then e :: x :: xs
    else
      let rev := (x :: xs).reverse
      match rev.dropWhile (fun y => decide (ts e < ts y)) with
      | [] => x :: xs
      | r :: rs => (rev.takeWhile (fun y => decide (ts e < ts y)) ++ e :: r :: rs).reverse

/-- The eviction loop of append: while the duration is at least the
timeframe, pop from the head. Returns (evicted entries in order,
remaining entries). -/
def evictLoop {α : Type} (tf : Int) (ts : α → Int) : List α → List α × List α
  | [] => ([], [])
  | x :: xs =>
    if tf ≤ durL ts (x :: xs) then
      (x :: (evictLoop tf ts xs).1, (evictLoop tf ts xs).2)
    else ([], x :: xs)

/-- The insertion step of append: append to the tail when the window is
empty or the incoming timestamp is at least the last timestamp, otherwise
delegate to append_middle. -/
def insertWin {α : Type} (ts : α → Int) (l : List α) (e : α) : List α :=
  match l with
  | [] => [e]
  | x :: xs =>
    if ts (xs.getLastD x) ≤ ts e then (x :: xs) ++ [e]
    else append_middle ts e (x :: xs)

/-- append: insert the entry, then evict from the head while the duration
is at least the timeframe. Returns (new window contents, evicted entries
in eviction order). -/
def winAppend {α : Type} (tf : Int) (ts : α → Int) (l : List α) (e : α) :
    List α × List α :=
  let d := insertWin ts l e
  ((evictLoop tf ts d).2, (evictLoop tf ts d).1)

/-- Folding a sequence of appends into an initially empty window,
discarding evicted entries (no on-removed callback). -/
def appendAll {α : Type} (tf : Int) (ts : α → Int) (es : List α) : List α :=
  es.foldl (fun d e => (winAppend tf ts d e).1) []

/-- Chronological order of a window: every entry has a timestamp at most
that of every later entry. -/
abbrev SortedTs {α : Type} (ts : α → Int) (l : List α) : Prop :=
  List.Pairwise (fun a b => ts a ≤ ts b) l

/-- The insertion position claimed by the specification (claim C2),
stated for chronologically sorted windows: the entry goes after the
nearest entry with a STRICTLY SMALLER timestamp scanning from the tail,
that is, after the longest prefix of strictly smaller timestamps. -/
def insertStrictSpec {α : Type} (ts : α → Int) (e : α) (l : List α) : List α :=
  l.takeWhile (fun y => decide (ts y < ts e)) ++ e :: l.dropWhile (fun y => decide (ts y < ts e))

/-! ### RuleType.add_match and AnyRule -/

/-- Modelled from the spec: the external timestamp formatter dt_to_ts
(util.py, not under src/), which renders a moment in a canonical string
form. Any injective rendering is faithful; we use decimal notation.
Non-moment values are left unchanged (the driver guarantees the
timestamp field holds a moment when this is applied). -/
def canonStr (t : Int) : String := toString t

/-- dt_to_ts lifted to event values. -/
def dtToTs : Value → Value
  | Value.vtime t => Value.vstr (canonStr t)
  | v => v

/-- RuleType.add_match canonicalisation: if the literal field @timestamp
is present, replace it with its canonical string form. -/
def canonMatch (ev : Event) : Event :=
  match lookupRaw ev "@timestamp" with
  | some v => setField ev "@timestamp" (dtToTs v)
  | none => ev

/-- RuleType.add_match: canonicalise the timestamp and append to the
match list. -/
def addMatch (ms : List Event) (ev : Event) : List Event :=
  ms ++ [canonMatch ev]

/-- AnyRule.add_data: every event becomes a match, appended directly to
the match list without passing through add_match. -/
def anyAddData (ms : List Event) (data : List Event) : List Event :=
  ms ++ data

/-! ### FrequencyRule -/

/-- The options of FrequencyRule that its transitions read. -/
structure FreqConfig : Type where
  numEvents : Int
  timeframe : Int
  tsField : String
  queryKey : Option String
deriving DecidableEq, Repr

/-- The mutable state of a FrequencyRule: per-key EventWindows plus the
match list. -/
structure FreqState : Type where
  occurrences : List (Key × List Entry)
  matchList : List Event
deriving DecidableEq, Repr

/-- A freshly constructed FrequencyRule. -/
def freqInit : FreqState := ⟨[], []⟩

/-- occurrences.setdefault(key, EventWindow(...)).append(entry): fetch or
create the window for the key and append the entry, discarding evicted
entries (FrequencyRule sets no on-removed callback). -/
def freqAppend (cfg : FreqConfig) (st : FreqState) (k : Key) (en : Entry) : FreqState :=
  let w := (lookupA st.occurrences k).getD []
  let w2 := (winAppend cfg.timeframe (entryTs cfg.tsField) w en).1
  ⟨insertA st.occurrences k w2, st.matchList⟩

/-- The newest event of a window: data[-1][0]. -/
def lastEvent (w : List Entry) : Event := (w.getLastD dummyEntry).1

/-- One iteration of the loop in FrequencyRule.check_for_match for a
given key: if the count of the window reaches num_events, emit the newest
event of the window as a match and drop the window. -/
def freqCheckStep (cfg : FreqConfig) (acc : FreqState) (k : Key) : FreqState :=
  match lookupA acc.occurrences k with
  | none => acc
  | some w =>
    if cfg.numEvents ≤ countL w then
      ⟨removeA acc.occurrences k, addMatch acc.matchList (lastEvent w)⟩
    else acc

/-- FrequencyRule.check_for_match: iterate over a snapshot of the keys. -/
def checkForMatch (cfg : FreqConfig) (st : FreqState) : FreqState :=
  (st.occurrences.map Prod.fst).foldl (freqCheckStep cfg) st

/-- The partition key of an event in FrequencyRule.add_data: the key all
when no query_key is configured (or it is falsy), otherwise the hashable
value of the query_key field. -/
def freqKey (cfg : FreqConfig) (ev : Event) : Key :=
  match cfg.queryKey with
  | none => kall
  | some qk => if qk = "" then kall else lookupES ev qk

/-- FrequencyRule.add_data: append (event, 1) to the window of its key
and run check_for_match, for each event in order. -/
def freqAddData (cfg : FreqConfig) (st : FreqState) (events : List Event) : FreqState :=
  events.foldl
    (fun acc ev => checkForMatch cfg (freqAppend cfg acc (freqKey cfg ev) (ev, 1))) st

/-- FrequencyRule.add_count_data: reject mappings with more than one
entry with EAException, otherwise append a synthesised event with the
given count to the all window and run check_for_match. -/
def freqAddCountData (cfg : FreqConfig) (st : FreqState) (data : List (Int × Int)) :
    Except String FreqState :=
  if 1 < data.length then
    Except.error "add_count_data can only accept one count at a time"
  else
    Except.ok (data.foldl
      (fun acc tc =>
        checkForMatch cfg (freqAppend cfg acc kall ([(cfg.tsField, Value.vtime tc.1)], tc.2))) st)

/-- FrequencyRule.add_terms_data: for each bucket, append a synthesised
event carrying the bucket key with the doc_count to the window keyed by
the bucket key, then run check_for_match. -/
def freqAddTermsData (cfg : FreqConfig) (st : FreqState)
    (terms : List (Int × List (Value × Int))) : FreqState :=
  terms.foldl
    (fun acc tb =>
      tb.2.foldl
        (fun acc2 bucket =>
          checkForMatch cfg (freqAppend cfg acc2 (some bucket.1)
            (setField [(cfg.tsField, Value.vtime tb.1)] (cfg.queryKey.getD "") bucket.1,
             bucket.2))) acc) st

/-- The timestamp of the newest entry of a window, as read by
FrequencyRule.garbage_collect. -/
def lastEntryTs (cfg : FreqConfig) (w : List Entry) : Int :=
  entryTs cfg.tsField (w.getLastD dummyEntry)

/-- FrequencyRule.garbage_collect: collect the keys whose newest entry is
more than timeframe older than the given timestamp, then pop each. -/
def freqGC (cfg : FreqConfig) (st : FreqState) (now : Int) : FreqState :=
  let staleKeys :=
    (st.occurrences.filter
      (fun kw => decide (cfg.timeframe < now - lastEntryTs cfg kw.2))).map Prod.fst
  ⟨staleKeys.foldl removeA st.occurrences, st.matchList⟩

/-! ### FlatlineRule

FlatlineRule forbids query_key, so its occurrences dict only ever holds
the key all; the state models that single window directly, as an Option
that is none exactly when the key is absent. first_event is a moment;
datetime objects are always truthy in Python, so the falsiness test of
the source is modelled as the Option being none. -/

/-- The options of FlatlineRule that its transitions read. -/
structure FlatConfig : Type where
  threshold : Int
  timeframe : Int
  tsField : String
deriving DecidableEq, Repr

/-- The mutable state of a FlatlineRule. -/
structure FlatState : Type where
  window : Option (List Entry)
  firstEvent : Option Int
  matchList : List Event
deriving DecidableEq, Repr

/-- A freshly constructed FlatlineRule. -/
def flatInit : FlatState := ⟨none, none, []⟩

/-- Append an entry to the all window (creating it when absent). -/
def flatAppend (cfg : FlatConfig) (st : FlatState) (en : Entry) : FlatState :=
  let w := st.window.getD []
  ⟨some (winAppend cfg.timeframe (entryTs cfg.tsField) w en).1, st.firstEvent, st.matchList⟩

/-- FlatlineRule.check_for_match: record first-seen on first call, then
suppress while the newest timestamp is within timeframe of first-seen
(warmup); otherwise, if the count is strictly below the threshold, emit
the newest event, discard the window and reset first-seen. -/
def flatCheck (cfg : FlatConfig) (st : FlatState) : FlatState :=
  let w := st.window.getD []
  let mostRecent := entryTs cfg.tsField (w.getLastD dummyEntry)
  let first := st.firstEvent.getD mostRecent
  if mostRecent - first < cfg.timeframe then ⟨st.window, some first, st.matchList⟩
  else if countL w < cfg.threshold then
    ⟨none, none, addMatch st.matchList (lastEvent w)⟩
  else ⟨st.window, some first, st.matchList⟩

/-- One FlatlineRule ingestion step: append an entry, then check. -/
def flatStep (cfg : FlatConfig) (st : FlatState) (en : Entry) : FlatState :=
  flatCheck cfg (flatAppend cfg st en)

/-- FlatlineRule add_data (inherited loop of FrequencyRule.add_data with
the overridden check): append (event, 1) and check, per event. -/
def flatAddData (cfg : FlatConfig) (st : FlatState) (events : List Event) : FlatState :=
  events.foldl (fun acc ev => flatStep cfg acc (ev, 1)) st

/-- FlatlineRule add_count_data (inherited from FrequencyRule, with the
overridden check): singleton shape enforced, then append and check. -/
def flatAddCountData (cfg : FlatConfig) (st : FlatState) (data : List (Int × Int)) :
    Except String FlatState :=
  if 1 < data.length then
    Except.error "add_count_data can only accept one count at a time"
  else
    Except.ok (data.foldl
      (fun acc tc => flatStep cfg acc ([(cfg.tsField, Value.vtime tc.1)], tc.2)) st)

/-- FlatlineRule.garbage_collect: append a synthetic zero-count entry at
the tick timestamp and re-check. -/
def flatGC (cfg : FlatConfig) (st : FlatState) (now : Int) : FlatState :=
  flatStep cfg st ([(cfg.tsField, Value.vtime now)], 0)

/-! ### SpikeRule

SpikeRule keeps, per key, a reference window and a current window; the
current window evicts into the reference window through the on-removed
callback. The source keeps cur_windows and ref_windows in two dicts that
are created, cleared and popped strictly in lock step, so the model keeps
one dict of window pairs. first_event is a separate dict that
garbage_collect never pops (as in the source). -/

/-- The options of SpikeRule that its transitions read. thresholdCur and
thresholdRef default to 0 when absent (rules.get with default). -/
structure SpikeConfig : Type where
  timeframe : Int
  spikeHeight : Int
  spikeType : String
  thresholdCur : Option Int
  thresholdRef : Option Int
  queryKey : Option String
  alertOnNewData : Bool
  tsField : String
deriving DecidableEq, Repr

/-- The pair of windows of one key: reference and current. -/
structure SpikeWindows : Type where
  ref : List Entry
  cur : List Entry
deriving DecidableEq, Repr

/-- The mutable state of a SpikeRule. -/
structure SpikeState : Type where
  windows : List (Value × SpikeWindows)
  firstEvent : List (Value × Event)
  refFilledOnce : Bool
  matchList : List Event
deriving DecidableEq, Repr

/-- A freshly constructed SpikeRule. -/
def spikeInit : SpikeState := ⟨[], [], false, []⟩

/-- SpikeRule.find_matches: apply the threshold limits, then accept iff
the configured spike_type direction fires; the division of the source is
Python 2 integer division on counts, that is, floor division. -/
def findMatches (cfg : SpikeConfig) (ref cur : Int) : Bool :=
  if cur < cfg.thresholdCur.getD 0 ∨ ref < cfg.thresholdRef.getD 0 then false
  else
    let spikeDown : Bool := decide (cur ≤ Int.fdiv ref cfg.spikeHeight)
    let spikeUp : Bool := decide (ref * cfg.spikeHeight ≤ cur)
    (decide (cfg.spikeType = "both" ∨ cfg.spikeType = "up") && spikeUp) ||
    (decide (cfg.spikeType = "both" ∨ cfg.spikeType = "down") && spikeDown)

/-- Truthiness of rules.get(query_key): present and non-empty. -/
def qkTruthy (cfg : SpikeConfig) : Bool := decide (cfg.queryKey.getD "" ≠ "")

/-- The tail of handle_event: evaluate find_matches on the counts of the
two windows of the key; on a match, emit the newest current entry
enriched with spike_count and reference_count, clear both windows, and
restart warmup by setting first_event to the matched event. -/
def spikeEval (cfg : SpikeConfig) (st : SpikeState) (qk : Value) : SpikeState :=
  let kw := (lookupA st.windows qk).getD ⟨[], []⟩
  if findMatches cfg (countL kw.ref) (countL kw.cur) then
    let m := (kw.cur.getLastD dummyEntry).1
    let enriched :=
      setField (setField m "spike_count" (Value.vint (countL kw.cur)))
        "reference_count" (Value.vint (countL kw.ref))
    ⟨insertA st.windows qk ⟨[], []⟩,
     insertA st.firstEvent qk m,
     st.refFilledOnce,
     addMatch st.matchList enriched⟩
  else st

/-- SpikeRule.handle_event: record first_event and create the window pair
on first sight of the key, append to the current window (hand evicted
entries to the reference window), then apply the warmup gate and possibly
evaluate a match. -/
def handleEvent (cfg : SpikeConfig) (st : SpikeState) (event : Event) (count : Int)
    (qk : Value) : SpikeState :=
  let fe := setdefaultA st.firstEvent qk event
  let kw := (lookupA st.windows qk).getD ⟨[], []⟩
  let app := winAppend cfg.timeframe (entryTs cfg.tsField) kw.cur (event, count)
  let ref2 := app.2.foldl
    (fun r en => (winAppend cfg.timeframe (entryTs cfg.tsField) r en).1) kw.ref
  let st1 : SpikeState :=
    ⟨insertA st.windows qk ⟨ref2, app.1⟩, fe, st.refFilledOnce, st.matchList⟩
  let firstEv := (lookupA fe qk).getD event
  if evTs cfg.tsField event - evTs cfg.tsField firstEv < cfg.timeframe * 2 then
    if (qkTruthy cfg && cfg.alertOnNewData) && st1.refFilledOnce then spikeEval cfg st1 qk
    else st1
  else spikeEval cfg ⟨st1.windows, st1.firstEvent, true, st1.matchList⟩ qk

/-- The partition key of an event in SpikeRule.add_data: the key all when
query_key is unset (or literally all), otherwise the value of that field
with absent or null mapping to the literal key other. -/
def spikeKey (cfg : SpikeConfig) (ev : Event) : Value :=
  let qk := cfg.queryKey.getD "all"
  if qk = "all" then Value.vstr "all"
  else
    match lookupRaw ev qk with
    | none => Value.vstr "other"
    | some Value.vnull => Value.vstr "other"
    | some v => v

/-- SpikeRule.add_data: handle each event with count 1 under its key. -/
def spikeAddData (cfg : SpikeConfig) (st : SpikeState) (events : List Event) : SpikeState :=
  events.foldl (fun acc ev => handleEvent cfg acc ev 1 (spikeKey cfg ev)) st

/-- SpikeRule.add_count_data: reject mappings with more than one entry
with EAException, otherwise handle a synthesised event carrying the
timestamp with the given count under the key all. -/
def spikeAddCountData (cfg : SpikeConfig) (st : SpikeState) (data : List (Int × Int)) :
    Except String SpikeState :=
  if 1 < data.length then
    Except.error "add_count_data can only accept one count at a time"
  else
    Except.ok (data.foldl
      (fun acc tc =>
        handleEvent cfg acc [(cfg.tsField, Value.vtime tc.1)] tc.2 (Value.vstr "all")) st)

/-- SpikeRule.add_terms_data: handle a synthesised event per bucket under
the bucket key with the doc_count. -/
def spikeAddTermsData (cfg : SpikeConfig) (st : SpikeState)
    (terms : List (Int × List (Value × Int))) : SpikeState :=
  terms.foldl
    (fun acc tb =>
      tb.2.foldl
        (fun acc2 bucket =>
          handleEvent cfg acc2
            (setField [(cfg.tsField, Value.vtime tb.1)] (cfg.queryKey.getD "") bucket.1)
            bucket.2 bucket.1) acc) st

/-- The zero-count placeholder event synthesised by
SpikeRule.garbage_collect: it carries the tick timestamp, plus the
query_key field set to the key when the key is not all. -/
def spikePlaceholder (cfg : SpikeConfig) (now : Int) (qk : Value) : Event :=
  let base : Event := [(cfg.tsField, Value.vtime now)]
  if qk ≠ Value.vstr "all" then setField base (cfg.queryKey.getD "") qk else base

/-- The zero-count test of SpikeRule.garbage_collect on one window pair. -/
def deadKW (qk : Value) (kw : SpikeWindows) : Bool :=
  decide (qk ≠ Value.vstr "all") && decide (countL kw.ref = 0) && decide (countL kw.cur = 0)

/-- One iteration of SpikeRule.garbage_collect for a key: if the key is
not all and both its windows count zero, pop both windows; otherwise run
the zero-count placeholder through handle_event. -/
def spikeGCStep (cfg : SpikeConfig) (now : Int) (acc : SpikeState) (qk : Value) : SpikeState :=
  match lookupA acc.windows qk with
  | none => acc
  | some kw =>
    if deadKW qk kw then
      ⟨removeA acc.windows qk, acc.firstEvent, acc.refFilledOnce, acc.matchList⟩
    else handleEvent cfg acc (spikePlaceholder cfg now qk) 0 qk

/-- SpikeRule.garbage_collect: iterate over a snapshot of the keys. -/
def spikeGC (cfg : SpikeConfig) (st : SpikeState) (now : Int) : SpikeState :=
  (st.windows.map Prod.fst).foldl (spikeGCStep cfg now) st

/-- The zero-count test evaluated against a fixed state. -/
def deadIn (st : SpikeState) (qk : Value) : Bool :=
  match lookupA st.windows qk with
  | some kw => deadKW qk kw
  | none => false

/-- The tick of claim C6 restated declaratively (with the count-zero
condition in place of emptiness): first forget every key that is not all
and whose two windows count zero, judged on the incoming state, then run
the zero-count placeholder through the normal ingestion path for each
surviving key, in key order. -/
def spikeGCSpec (cfg : SpikeConfig) (st : SpikeState) (now : Int) : SpikeState :=
  let ks := st.windows.map Prod.fst
  let start : SpikeState :=
    ⟨(ks.filter (fun k => deadIn st k)).foldl removeA st.windows,
     st.firstEvent, st.refFilledOnce, st.matchList⟩
  (ks.filter (fun k => !deadIn st k)).foldl
    (fun acc qk => handleEvent cfg acc (spikePlaceholder cfg now qk) 0 qk) start

/-- The tick exactly as claim C6 words it: a key is forgotten when both
its windows are EMPTY (rather than counting zero) and it is not all;
otherwise the placeholder is ingested. Used to refute the claim. -/
def spikeGCClaim (cfg : SpikeConfig) (st : SpikeState) (now : Int) : SpikeState :=
  (st.windows.map Prod.fst).foldl
    (fun acc qk =>
      match lookupA acc.windows qk with
      | none => acc
      | some kw =>
        if qk ≠ Value.vstr "all" ∧ kw.ref = [] ∧ kw.cur = [] then
          ⟨removeA acc.windows qk, acc.firstEvent, acc.refFilledOnce, acc.matchList⟩
        else handleEvent cfg acc (spikePlaceholder cfg now qk) 0 qk) st

/-! ### ChangeRule -/

/-- The options of ChangeRule that compare reads. -/
structure ChangeConfig : Type where
  queryKey : String
  compareKey : String
  tsField : String
  ignoreNull : Bool
  timeframe : Option Int
deriving DecidableEq, Repr

/-- The mutable state of a ChangeRule: last observed value per key (a
stored Python None is Option.none), last observed timestamp per key, the
change enrichment map and the match list. -/
structure ChangeState : Type where
  occurrences : List (Key × Option Value)
  occurrenceTime : List (Key × Int)
  changeMap : List (Key × (Option Value × Option Value))
  matchList : List Event
deriving DecidableEq, Repr

/-- A freshly constructed ChangeRule. -/
def changeInit : ChangeState := ⟨[], [], [], []⟩

/-- Python falsiness of an optional event value: None, null, zero and the
empty string are falsy. -/
def falsyV : Option Value → Bool
  | none => true
  | some Value.vnull => true
  | some (Value.vint n) => decide (n = 0)
  | some (Value.vstr s) => decide (s = "")
  | some (Value.vtime _) => false

/-- ChangeRule.compare: skip falsy values under ignore_null; otherwise
decide a change against the stored value (overridden by the timeframe
test when a time is recorded for the key), then unconditionally update
the stored value, and the stored time when timeframe is configured.
Returns the match decision together with the updated state. The source
reads rules[timeframe] only under key in occurrence_time, which in any
run of the rule implies timeframe is configured; the model reads the
configured value with default 0 and theorems carry that side condition. -/
def changeCompare (cfg : ChangeConfig) (st : ChangeState) (ev : Event) :
    Bool × ChangeState :=
  let key : Key := lookupES ev cfg.queryKey
  let val : Option Value := lookupES ev cfg.compareKey
  if falsyV val && cfg.ignoreNull then (false, st)
  else
    let res : Bool × List (Key × (Option Value × Option Value)) :=
      match lookupA st.occurrences key with
      | none => (false, st.changeMap)
      | some old =>
        if old ≠ val then
          let cm := insertA st.changeMap key (old, val)
          match lookupA st.occurrenceTime key with
          | some t => (decide (evTs cfg.tsField ev - t ≤ cfg.timeframe.getD 0), cm)
          | none => (true, cm)
        else (false, st.changeMap)
    let occ2 := insertA st.occurrences key val
    let ot2 :=
      if cfg.timeframe.isSome then insertA st.occurrenceTime key (evTs cfg.tsField ev)
      else st.occurrenceTime
    (res.1, ⟨occ2, ot2, res.2, st.matchList⟩)

/-- ChangeRule.add_match: enrich the match with old_value and new_value
from the change map (a stored Python None renders as null), then
canonicalise and append. -/
def changeAddMatch (cfg : ChangeConfig) (st : ChangeState) (ev : Event) : ChangeState :=
  let change := lookupA st.changeMap (lookupES ev cfg.queryKey)
  let enriched :=
    match change with
    | some c =>
      setField (setField ev "old_value" (c.1.getD Value.vnull))
        "new_value" (c.2.getD Value.vnull)
    | none => ev
  ⟨st.occurrences, st.occurrenceTime, st.changeMap, addMatch st.matchList enriched⟩

/-- CompareRule.add_data for ChangeRule: for each event, run compare and
add a match when it returns true. -/
def changeAddData (cfg : ChangeConfig) (st : ChangeState) (events : List Event) :
    ChangeState :=
  events.foldl
    (fun acc ev =>
      let r := changeCompare cfg acc ev
      if r.1 then changeAddMatch cfg r.2 ev else r.2) st

/-- The match condition exactly as claim C7 words it: the newly observed
value differs from the previously stored NON-NULL value for the key, and
when timeframe is configured the delta against the recorded time is
within it. Used to refute the claim (the stored value may be null when
ignore_null is false, and the code still matches against it). -/
def changeClaimCond (cfg : ChangeConfig) (st : ChangeState) (ev : Event) : Prop :=
  ∃ v : Value,
    lookupA st.occurrences (lookupES ev cfg.queryKey) = some (some v) ∧
    some v ≠ lookupES ev cfg.compareKey ∧
    (cfg.timeframe.isSome →
      ∀ t, lookupA st.occurrenceTime (lookupES ev cfg.queryKey) = some t →
        evTs cfg.tsField ev - t ≤ cfg.timeframe.getD 0)

/-! ### Reachable rule states (for the safety claim C10) -/

/-- The states a FrequencyRule can be in after any sequence of public
operations from construction. The count-data constructor only applies
when the call is accepted (on the shape error the Python exception
propagates before any state change). Flatline inherits the raw-event and
count-data paths but not the terms path (its configuration forbids
query_key, which the terms path requires). -/
inductive FreqReach (cfg : FreqConfig) : FreqState → Prop where
  | init : FreqReach cfg freqInit
  | addData (st : FreqState) (events : List Event) :
      FreqReach cfg st → FreqReach cfg (freqAddData cfg st events)
  | addCount (st st2 : FreqState) (data : List (Int × Int)) :
      FreqReach cfg st → freqAddCountData cfg st data = Except.ok st2 →
      FreqReach cfg st2
  | addTerms (st : FreqState) (terms : List (Int × List (Value × Int))) :
      FreqReach cfg st → FreqReach cfg (freqAddTermsData cfg st terms)
  | gc (st : FreqState) (now : Int) :
      FreqReach cfg st → FreqReach cfg (freqGC cfg st now)

/-- The states a FlatlineRule can be in after any sequence of public
operations from construction. -/
inductive FlatReach (cfg : FlatConfig) : FlatState → Prop where
  | init : FlatReach cfg flatInit
  | addData (st : FlatState) (events : List Event) :
      FlatReach cfg st → FlatReach cfg (flatAddData cfg st events)
  | addCount (st st2 : FlatState) (data : List (Int × Int)) :
      FlatReach cfg st → flatAddCountData cfg st data = Except.ok st2 →
      FlatReach cfg st2
  | gc (st : FlatState) (now : Int) :
      FlatReach cfg st → FlatReach cfg (flatGC cfg st now)

/-- Every window stored in the occurrences of a FrequencyRule is
non-empty, so the data[-1] reads of check_for_match and garbage_collect
are in bounds. -/
def FreqWF (st : FreqState) : Prop := ∀ kw ∈ st.occurrences, kw.2 ≠ []

/-- The all window of a FlatlineRule, when present, is non-empty, so the
data[-1] read of check_for_match is in bounds. -/
def FlatWF (st : FlatState) : Prop := ∀ w, st.window = some w → w ≠ []

/-! ### Concrete fixtures for counterexamples and witnesses -/

/-- Entry timestamp accessor under the default timestamp field. -/
def tsA : Entry → Int := entryTs "@timestamp"

/-- Entry at timestamp 0. -/
def en0 : Entry := ([("@timestamp", Value.vtime 0)], 1)

/-- Entry at timestamp 1 tagged a. -/
def en1a : Entry := ([("@timestamp", Value.vtime 1), ("id", Value.vstr "a")], 1)

/-- Entry at timestamp 3. -/
def en3 : Entry := ([("@timestamp", Value.vtime 3)], 1)

/-- Entry at timestamp 1 tagged b, arriving out of order. -/
def en1b : Entry := ([("@timestamp", Value.vtime 1), ("id", Value.vstr "b")], 1)

/-- A window with timestamps 0, 1, 3 built by in-order appends. -/
def w013 : List Entry := appendAll 100 tsA [en0, en1a, en3]

/-- Spike configuration for the garbage-collect counterexample. -/
def cfgSpikeCx : SpikeConfig :=
  ⟨10, 3, "up", none, none, some "qk", false, "@timestamp"⟩

/-- Spike state holding one key whose current window is non-empty but
counts zero: a single zero-count placeholder entry. -/
def stSpikeCx : SpikeState :=
  ⟨[(Value.vstr "k", ⟨[], [([("@timestamp", Value.vtime 0), ("qk", Value.vstr "k")], 0)]⟩)],
   [(Value.vstr "k", [("@timestamp", Value.vtime 0), ("qk", Value.vstr "k")])],
   false, []⟩

/-- Change configuration with no timeframe and ignore_null off. -/
def cfgChangeCx : ChangeConfig := ⟨"host", "status", "@timestamp", false, none⟩

/-- First event for the Change counterexample: the compare_key field is
missing, so a null is stored for the key. -/
def cev1 : Event := [("host", Value.vstr "A"), ("@timestamp", Value.vtime 0)]

/-- Second event for the Change counterexample: a non-null value for the
same key. -/
def cev2 : Event :=
  [("host", Value.vstr "A"), ("status", Value.vstr "up"), ("@timestamp", Value.vtime 1)]

/-- The Change state after ingesting the first event. -/
def stChangeCx : ChangeState := (changeCompare cfgChangeCx changeInit cev1).2

/-- The match decision of ChangeRule.compare in isolation (the flag the
source computes in its changed variable before the state updates). -/
def changeFlag (cfg : ChangeConfig) (st : ChangeState) (ev : Event) : Bool :=
  match lookupA st.occurrences (lookupES ev cfg.queryKey) with
  | none => false
  | some old =>
    if old ≠ lookupES ev cfg.compareKey then
      match lookupA st.occurrenceTime (lookupES ev cfg.queryKey) with
      | some t => decide (evTs cfg.tsField ev - t ≤ cfg.timeframe.getD 0)
      | none => true
    else false

/-- The contents of the all window right after one flatline append (the
state read by the match check). -/
def flatW (cfg : FlatConfig) (st : FlatState) (en : Entry) : List Entry :=
  (winAppend cfg.timeframe (entryTs cfg.tsField) (st.window.getD []) en).1

/-- Flatline configuration for witnesses: threshold five within ten. -/
def cfgFlatW : FlatConfig := ⟨5, 10, "@timestamp"⟩

/-- Flatline state for witnesses: one event at time 0 seen, first-seen
recorded at 0. -/
def stFlatW : FlatState := ⟨some [([("@timestamp", Value.vtime 0)], 1)], some 0, []⟩

/-- An ingested entry at time 11 for the flatline witness. -/
def enFlatW : Entry := ([("@timestamp", Value.vtime 11)], 1)

/-- Frequency configuration for witnesses: three events within ten. -/
def cfgFreqW : FreqConfig := ⟨3, 10, "@timestamp", none⟩

/-- A concrete event at timestamp 5. -/
def evW : Event := [("@timestamp", Value.vtime 5)]

/-- Frequency state for the check witness: the all window holds one entry
counting 3, which meets num_events. -/
def stFreqW : FreqState := ⟨[(kall, [(evW, 3)])], []⟩

/-! ## Theorems -/

/-! ### Window lemmas -/

theorem durL_evictLoop_lt {α : Type} (tf : Int) (ts : α → Int) (htf : 0 < tf) :
    ∀ l : List α, durL ts (evictLoop tf ts l).2 < tf := by
  intro l
  induction l with
  | nil => simpa [evictLoop, durL] using htf
  | cons x xs ih =>
    rw [evictLoop]
    split
    · exact ih
    · next h => exact lt_of_not_le h

theorem durL_winAppend_lt {α : Type} (tf : Int) (ts : α → Int) (htf : 0 < tf)
    (l : List α) (e : α) : durL ts (winAppend tf ts l e).1 < tf :=
  durL_evictLoop_lt tf ts htf (insertWin ts l e)

theorem durL_appendAll_aux {α : Type} (tf : Int) (ts : α → Int) (htf : 0 < tf) :
    ∀ (es : List α) (l : List α), durL ts l < tf →
      durL ts (es.foldl (fun d e => (winAppend tf ts d e).1) l) < tf := by
  intro es
  induction es with
  | nil => intro l h; exact h
  | cons e es ih =>
    intro l _
    exact ih ((winAppend tf ts l e).1) (durL_winAppend_lt tf ts htf l e)

/-- Claim C1: after any append to an EventWindow (from any prior
contents), and hence after every append of any sequence of appends from
the empty window, the duration, timestamp of the last entry minus
timestamp of the first and zero when empty, is strictly less than the
(positive) timeframe. -/
theorem claim_C1_window_duration {α : Type} (tf : Int) (ts : α → Int) (htf : 0 < tf) :
    (∀ (l : List α) (e : α), durL ts (winAppend tf ts l e).1 < tf) ∧
    (∀ es : List α, durL ts (appendAll tf ts es) < tf) := by
  refine ⟨durL_winAppend_lt tf ts htf, ?_⟩
  intro es
  exact durL_appendAll_aux tf ts htf es [] (by simpa [durL] using htf)

/-- Witness for claim C1 at concrete inputs. -/
theorem claim_C1_window_duration_witness :
    durL tsA ((winAppend 10 tsA [en0] en3).1) < 10 ∧
    durL tsA (appendAll 10 tsA [en0, en3]) < 10 :=
  ⟨(claim_C1_window_duration 10 tsA (by decide)).1 [en0] en3,
   (claim_C1_window_duration 10 tsA (by decide)).2 [en0, en3]⟩

theorem ts_le_getLastD {α : Type} (ts : α → Int) :
    ∀ (x : α) (xs : List α), SortedTs ts (x :: xs) →
      ∀ a ∈ x :: xs, ts a ≤ ts (xs.getLastD x) := by
  intro x xs
  induction xs generalizing x with
  | nil =>
    intro _ a ha
    simp only [List.mem_singleton] at ha
    subst ha
    simp [List.getLastD]
  | cons y ys ih =>
    intro hs a ha
    rw [List.getLastD_cons]
    rcases List.mem_cons.mp ha with rfl | ha2
    · have h1 : ts a ≤ ts y := (List.pairwise_cons.mp hs).1 y (by simp)
      have h2 : ts y ≤ ts (ys.getLastD y) :=
        ih y (List.pairwise_cons.mp hs).2 y (by simp)
      exact le_trans h1 h2
    · exact ih y (List.pairwise_cons.mp hs).2 a ha2

theorem sorted_dropWhile_not {α : Type} (ts : α → Int) (c : Int) :
    ∀ l : List α, SortedTs ts l →
      ∀ a ∈ l.dropWhile (fun y => decide (ts y ≤ c)), ¬ ts a ≤ c := by
  intro l
  induction l with
  | nil => intro _ a ha; simp [List.dropWhile] at ha
  | cons x xs ih =>
    intro hs a ha
    rw [List.dropWhile_cons] at ha
    by_cases hx : ts x ≤ c
    · rw [if_pos (by simpa using hx)] at ha
      exact ih (List.pairwise_cons.mp hs).2 a ha
    · rw [if_neg (by simpa using hx)] at ha
      rcases List.mem_cons.mp ha with rfl | ha2
      · exact hx
      · exact fun h => hx (le_trans ((List.pairwise_cons.mp hs).1 a ha2) h)

theorem takeWhile_append_all {α : Type} (q : α → Bool) :
    ∀ (A B : List α), (∀ a ∈ A, q a = true) →
      (A ++ B).takeWhile q = A ++ B.takeWhile q := by
  intro A
  induction A with
  | nil => intro B _; simp
  | cons x xs ih =>
    intro B hA
    have hx : q x = true := hA x (by simp)
    simp only [List.cons_append, List.takeWhile_cons]
    rw [if_pos hx, ih B (fun a ha => hA a (by simp [ha]))]

theorem dropWhile_append_all {α : Type} (q : α → Bool) :
    ∀ (A B : List α), (∀ a ∈ A, q a = true) →
      (A ++ B).dropWhile q = B.dropWhile q := by
  intro A
  induction A with
  | nil => intro B _; simp
  | cons x xs ih =>
    intro B hA
    have hx : q x = true := hA x (by simp)
    simp only [List.cons_append, List.dropWhile_cons]
    rw [if_pos hx]
    exact ih B (fun a ha => hA a (by simp [ha]))

theorem rev_scan_split {α : Type} (ts : α → Int) (e : α) (T D : List α)
    (hTmem : ∀ a ∈ T, ts a ≤ ts e) (hDmem : ∀ a ∈ D, ¬ ts a ≤ ts e) (hTne : T ≠ []) :
    (T ++ D).reverse.takeWhile (fun y => decide (ts e < ts y)) = D.reverse ∧
    (T ++ D).reverse.dropWhile (fun y => decide (ts e < ts y)) = T.reverse := by
  have hDq : ∀ a ∈ D.reverse, (fun y => decide (ts e < ts y)) a = true := by
    intro a ha
    exact decide_eq_true (not_le.mp (hDmem a (List.mem_reverse.mp ha)))
  obtain ⟨t0, ts0, hTrev⟩ : ∃ t0 ts0, T.reverse = t0 :: ts0 := by
    cases hcase : T.reverse with
    | nil => exact absurd (List.reverse_eq_nil_iff.mp hcase) hTne
    | cons a b => exact ⟨a, b, rfl⟩
  have ht0 : t0 ∈ T := List.mem_reverse.mp (by rw [hTrev]; simp)
  have hq0 : (fun y => decide (ts e < ts y)) t0 = false := by
    simpa using decide_eq_false (not_lt.mpr (hTmem t0 ht0))
  rw [List.reverse_append]
  constructor
  · rw [takeWhile_append_all _ D.reverse T.reverse hDq, hTrev, List.takeWhile_cons,
      if_neg (by simp [hq0])]
    simp
  · rw [dropWhile_append_all _ D.reverse T.reverse hDq, hTrev, List.dropWhile_cons,
      if_neg (by simp [hq0])]

theorem append_middle_sorted {α : Type} (ts : α → Int) (e : α) :
    ∀ l : List α, SortedTs ts l →
      append_middle ts e l =
        l.takeWhile (fun y => decide (ts y ≤ ts e)) ++
          e :: l.dropWhile (fun y => decide (ts y ≤ ts e)) := by
  intro l hs
  cases l with
  | nil => rfl
  | cons x xs =>
    by_cases hx : ts e < ts x
    · rw [List.takeWhile_cons, if_neg (by simpa using not_le_of_lt hx),
        List.dropWhile_cons, if_neg (by simpa using not_le_of_lt hx)]
      rw [append_middle, if_pos hx]
      rfl
    · have hxe : ts x ≤ ts e := le_of_not_lt hx
      have hTmem : ∀ a ∈ (x :: xs).takeWhile (fun y => decide (ts y ≤ ts e)), ts a ≤ ts e := by
        intro a ha
        have h1 := List.mem_takeWhile_imp ha
        simpa using h1
      have hDmem : ∀ a ∈ (x :: xs).dropWhile (fun y => decide (ts y ≤ ts e)), ¬ ts a ≤ ts e :=
        fun a ha => sorted_dropWhile_not ts (ts e) _ hs a ha
      have hTne : (x :: xs).takeWhile (fun y => decide (ts y ≤ ts e)) ≠ [] := by
        rw [List.takeWhile_cons, if_pos (by simpa using hxe)]
        exact List.cons_ne_nil _ _
      have hsplit :=
        List.takeWhile_append_dropWhile (fun y => decide (ts y ≤ ts e)) (x :: xs)
      have hscan := rev_scan_split ts e
        ((x :: xs).takeWhile (fun y => decide (ts y ≤ ts e)))
        ((x :: xs).dropWhile (fun y => decide (ts y ≤ ts e))) hTmem hDmem hTne
      rw [hsplit] at hscan
      rw [append_middle, if_neg hx]
      show (match List.dropWhile (fun y => decide (ts e < ts y)) (x :: xs).reverse with
        | [] => x :: xs
        | r :: rs =>
          (List.takeWhile (fun y => decide (ts e < ts y)) (x :: xs).reverse ++
            e :: r :: rs).reverse) = _
      rw [hscan.2, hscan.1]
      obtain ⟨t0, ts0, hTrev⟩ :
          ∃ t0 ts0,
            ((x :: xs).takeWhile (fun y => decide (ts y ≤ ts e))).reverse = t0 :: ts0 := by
        cases hcase : ((x :: xs).takeWhile (fun y => decide (ts y ≤ ts e))).reverse with
        | nil => exact absurd (List.reverse_eq_nil_iff.mp hcase) hTne
        | cons a b => exact ⟨a, b, rfl⟩
      rw [hTrev]
      show (((x :: xs).dropWhile (fun y => decide (ts y ≤ ts e))).reverse ++
          e :: t0 :: ts0).reverse = _
      rw [← hTrev, List.reverse_append, List.reverse_reverse]
      show (e :: ((x :: xs).takeWhile (fun y => decide (ts y ≤ ts e))).reverse).reverse ++ _ = _
      rw [List.reverse_cons, List.reverse_reverse, List.append_assoc]
      rfl

theorem insertWin_sorted {α : Type} (ts : α → Int) (l : List α) (e : α)
    (hs : SortedTs ts l) : SortedTs ts (insertWin ts l e) := by
  cases l with
  | nil => simp [insertWin, SortedTs]
  | cons x xs =>
    rw [insertWin]
    split
    · next hle =>
      rw [SortedTs, List.pairwise_append]
      refine ⟨hs, List.pairwise_singleton _ _, ?_⟩
      intro a ha b hb
      simp only [List.mem_singleton] at hb
      subst hb
      exact le_trans (ts_le_getLastD ts x xs hs a ha) hle
    · rw [append_middle_sorted ts e (x :: xs) hs]
      have hTmem : ∀ a ∈ (x :: xs).takeWhile (fun y => decide (ts y ≤ ts e)), ts a ≤ ts e := by
        intro a ha
        have h1 := List.mem_takeWhile_imp ha
        simpa using h1
      have hDmem : ∀ a ∈ (x :: xs).dropWhile (fun y => decide (ts y ≤ ts e)), ts e < ts a := by
        intro a ha
        exact lt_of_not_le (sorted_dropWhile_not ts (ts e) _ hs a ha)
      rw [SortedTs, List.pairwise_append]
      refine ⟨List.Pairwise.sublist (List.takeWhile_sublist _) hs, ?_, ?_⟩
      · rw [List.pairwise_cons]
        exact ⟨fun b hb => le_of_lt (hDmem b hb),
          List.Pairwise.sublist (List.dropWhile_sublist _) hs⟩
      · intro a ha b hb
        rcases List.mem_cons.mp hb with rfl | hb2
        · exact hTmem a ha
        · exact le_trans (hTmem a ha) (le_of_lt (hDmem b hb2))

theorem evictLoop_sublist {α : Type} (tf : Int) (ts : α → Int) :
    ∀ l : List α, ((evictLoop tf ts l).2).Sublist l := by
  intro l
  induction l with
  | nil => simp [evictLoop]
  | cons x xs ih =>
    rw [evictLoop]
    split
    · exact ih.trans (List.sublist_cons_self x xs)
    · exact List.Sublist.refl _

theorem winAppend_sorted {α : Type} (tf : Int) (ts : α → Int) (l : List α) (e : α)
    (hs : SortedTs ts l) : SortedTs ts (winAppend tf ts l e).1 :=
  List.Pairwise.sublist (evictLoop_sublist tf ts (insertWin ts l e))
    (insertWin_sorted ts l e hs)

theorem appendAll_sorted_aux {α : Type} (tf : Int) (ts : α → Int) :
    ∀ (es : List α) (l : List α), SortedTs ts l →
      SortedTs ts (es.foldl (fun d e => (winAppend tf ts d e).1) l) := by
  intro es
  induction es with
  | nil => intro l h; exact h
  | cons e es ih =>
    intro l hl
    exact ih _ (winAppend_sorted tf ts l e hl)

/-- Claim C2, amended: after any sequence of appends the window iterates
in non-decreasing timestamp order; and on a chronologically sorted
window the out-of-order insertion of append_middle places the incoming
entry after the longest prefix of entries whose timestamp is LESS THAN
OR EQUAL to the incoming one, that is, after the nearest entry from the
tail whose timestamp is not strictly greater (the claim said strictly
smaller, which the counterexample refutes when equal timestamps are
present). The prepend case of the source is the instance where that
prefix is empty. -/
theorem claim_C2_order_and_insertion {α : Type} (tf : Int) (ts : α → Int) :
    (∀ es : List α, SortedTs ts (appendAll tf ts es)) ∧
    (∀ (l : List α) (e : α), SortedTs ts l →
      append_middle ts e l =
        l.takeWhile (fun y => decide (ts y ≤ ts e)) ++
          e :: l.dropWhile (fun y => decide (ts y ≤ ts e))) := by
  constructor
  · intro es
    exact appendAll_sorted_aux tf ts es [] (by simp [SortedTs])
  · intro l e hs
    exact append_middle_sorted ts e l hs

/-- Witness for the amended claim C2 at concrete inputs. -/
theorem claim_C2_order_and_insertion_witness :
    SortedTs tsA (appendAll 100 tsA [en0, en3, en1a]) ∧
    append_middle tsA en1b [en0, en1a, en3] =
      ([en0, en1a, en3].takeWhile (fun y => decide (tsA y ≤ tsA en1b)) ++
        en1b :: [en0, en1a, en3].dropWhile (fun y => decide (tsA y ≤ tsA en1b))) :=
  ⟨(claim_C2_order_and_insertion 100 tsA).1 [en0, en3, en1a],
   (claim_C2_order_and_insertion 100 tsA).2 [en0, en1a, en3] en1b (by decide)⟩

/-- Counterexample to claim C2 as stated: the window holds timestamps
0, 1, 3 and an entry with timestamp 1 arrives. The source inserts it
after the existing entry with the EQUAL timestamp 1 (it stops at the
first tail entry whose timestamp is not strictly greater), while the
claimed policy, insert after the nearest entry with a STRICTLY SMALLER
timestamp, would place it before that entry. -/
theorem claim_C2_counterexample :
    (winAppend 100 tsA w013 en1b).1 ≠ insertStrictSpec tsA en1b w013 ∧
    (winAppend 100 tsA w013 en1b).1 = [en0, en1a, en1b, en3] ∧
    insertStrictSpec tsA en1b w013 = [en0, en1b, en1a, en3] :=
  ⟨by decide, by decide, by decide⟩

/-! ### Association list lemmas -/

theorem lookupA_insertA_self {κ α : Type} [DecidableEq κ] :
    ∀ (m : List (κ × α)) (k : κ) (v : α), lookupA (insertA m k v) k = some v := by
  intro m k v
  induction m with
  | nil => simp [insertA, lookupA]
  | cons kv rest ih =>
    by_cases h : kv.1 = k
    · simp [insertA, h, lookupA]
    · simp [insertA, h, lookupA, ih]

theorem lookupA_insertA_ne {κ α : Type} [DecidableEq κ] (k2 : κ) :
    ∀ (m : List (κ × α)) (k : κ) (v : α), k2 ≠ k →
      lookupA (insertA m k v) k2 = lookupA m k2 := by
  intro m
  induction m with
  | nil =>
    intro k v hne
    simp [insertA, lookupA, Ne.symm hne]
  | cons kv rest ih =>
    intro k v hne
    by_cases h : kv.1 = k
    · simp [insertA, h, lookupA, Ne.symm hne]
    · simp [insertA, h, lookupA, ih k v hne]

theorem lookupA_removeA_ne {κ α : Type} [DecidableEq κ] (k2 : κ) :
    ∀ (m : List (κ × α)) (k : κ), k2 ≠ k →
      lookupA (removeA m k) k2 = lookupA m k2 := by
  intro m
  induction m with
  | nil => intro k _; rfl
  | cons kv rest ih =>
    intro k hne
    by_cases h : kv.1 = k
    · simp [removeA, h, lookupA, Ne.symm hne]
    · simp [removeA, h, lookupA, ih k hne]

theorem insertA_removeA_comm {κ α : Type} [DecidableEq κ] (k2 : κ) :
    ∀ (m : List (κ × α)) (k : κ) (v : α), k2 ≠ k →
      insertA (removeA m k2) k v = removeA (insertA m k v) k2 := by
  intro m
  induction m with
  | nil =>
    intro k v hne
    simp [insertA, removeA, Ne.symm hne]
  | cons kv rest ih =>
    intro k v hne
    by_cases h : kv.1 = k2
    · have hk : ¬ kv.1 = k := by rw [h]; exact hne
      simp [removeA, insertA, h, hk, hne]
    · by_cases h2 : kv.1 = k
      · simp [removeA, insertA, h, h2, Ne.symm hne]
      · simp [removeA, insertA, h, h2, ih k v hne]

theorem removeA_append_single {κ α : Type} [DecidableEq κ] (k2 k : κ) (v : α) :
    ∀ m : List (κ × α), k2 ≠ k →
      removeA (m ++ [(k, v)]) k2 = removeA m k2 ++ [(k, v)] := by
  intro m
  induction m with
  | nil =>
    intro hne
    simp [removeA, Ne.symm hne]
  | cons kv rest ih =>
    intro hne
    by_cases h : kv.1 = k2
    · simp [removeA, h]
    · simp [removeA, h, ih hne]

theorem setdefaultA_removeA_comm {κ α : Type} [DecidableEq κ] (k2 : κ)
    (m : List (κ × α)) (k : κ) (v : α) (hne : k2 ≠ k) :
    setdefaultA (removeA m k2) k v = removeA (setdefaultA m k v) k2 := by
  rw [setdefaultA, setdefaultA, lookupA_removeA_ne k m k2 (Ne.symm hne)]
  split
  · rfl
  · exact (removeA_append_single k2 k v m hne).symm

theorem mem_insertA {κ α : Type} [DecidableEq κ] (kv : κ × α) :
    ∀ (m : List (κ × α)) (k : κ) (v : α), kv ∈ insertA m k v → kv ∈ m ∨ kv = (k, v) := by
  intro m
  induction m with
  | nil => intro k v h; simp [insertA] at h; exact Or.inr h
  | cons kv2 rest ih =>
    intro k v h
    by_cases h2 : kv2.1 = k
    · rw [insertA, if_pos h2] at h
      rcases List.mem_cons.mp h with rfl | h3
      · exact Or.inr rfl
      · exact Or.inl (List.mem_cons.mpr (Or.inr h3))
    · rw [insertA, if_neg h2] at h
      rcases List.mem_cons.mp h with rfl | h3
      · exact Or.inl (List.mem_cons.mpr (Or.inl rfl))
      · rcases ih k v h3 with h4 | h4
        · exact Or.inl (List.mem_cons.mpr (Or.inr h4))
        · exact Or.inr h4

theorem mem_removeA {κ α : Type} [DecidableEq κ] (kv : κ × α) :
    ∀ (m : List (κ × α)) (k : κ), kv ∈ removeA m k → kv ∈ m := by
  intro m
  induction m with
  | nil => intro k h; simp [removeA] at h
  | cons kv2 rest ih =>
    intro k h
    by_cases h2 : kv2.1 = k
    · rw [removeA, if_pos h2] at h
      exact List.mem_cons.mpr (Or.inr h)
    · rw [removeA, if_neg h2] at h
      rcases List.mem_cons.mp h with rfl | h3
      · exact List.mem_cons.mpr (Or.inl rfl)
      · exact List.mem_cons.mpr (Or.inr (ih k h3))

theorem mem_foldl_removeA {κ α : Type} [DecidableEq κ] (kv : κ × α) :
    ∀ (S : List κ) (m : List (κ × α)), kv ∈ S.foldl removeA m → kv ∈ m := by
  intro S
  induction S with
  | nil => intro m h; exact h
  | cons k S ih =>
    intro m h
    exact mem_removeA kv m k (ih (removeA m k) h)

theorem lookupA_append_not_mem {κ α : Type} [DecidableEq κ] (k : κ) :
    ∀ (pre rest : List (κ × α)), k ∉ pre.map Prod.fst →
      lookupA (pre ++ rest) k = lookupA rest k := by
  intro pre
  induction pre with
  | nil => intro rest _; rfl
  | cons kv p ih =>
    intro rest hk
    rw [List.map_cons] at hk
    have h1 : ¬ kv.1 = k := fun h => hk (List.mem_cons.mpr (Or.inl h.symm))
    have h2 : k ∉ p.map Prod.fst := fun h => hk (List.mem_cons.mpr (Or.inr h))
    rw [List.cons_append, lookupA, if_neg h1]
    exact ih rest h2

theorem removeA_append_not_mem {κ α : Type} [DecidableEq κ] (k : κ) :
    ∀ (pre rest : List (κ × α)), k ∉ pre.map Prod.fst →
      removeA (pre ++ rest) k = pre ++ removeA rest k := by
  intro pre
  induction pre with
  | nil => intro rest _; rfl
  | cons kv p ih =>
    intro rest hk
    rw [List.map_cons] at hk
    have h1 : ¬ kv.1 = k := fun h => hk (List.mem_cons.mpr (Or.inl h.symm))
    have h2 : k ∉ p.map Prod.fst := fun h => hk (List.mem_cons.mpr (Or.inr h))
    rw [List.cons_append, removeA, if_neg h1, List.cons_append, ih rest h2]

/-! ### Claim C3: the FrequencyRule match check -/

theorem freqCheck_loop (cfg : FreqConfig) :
    ∀ (L pre : List (Key × List Entry)) (ms : List Event),
      ((pre ++ L).map Prod.fst).Nodup →
      (L.map Prod.fst).foldl (freqCheckStep cfg) ⟨pre ++ L, ms⟩ =
        ⟨pre ++ L.filter (fun kw => decide (countL kw.2 < cfg.numEvents)),
         ms ++ (L.filter (fun kw => decide (cfg.numEvents ≤ countL kw.2))).map
           (fun kw => canonMatch (lastEvent kw.2))⟩ := by
  intro L
  induction L with
  | nil => intro pre ms _; simp
  | cons kw0 rest ih =>
    intro pre ms hnd
    obtain ⟨k, w⟩ := kw0
    have hnd2 : (pre.map Prod.fst ++ k :: rest.map Prod.fst).Nodup := by
      simpa using hnd
    have hkpre : k ∉ pre.map Prod.fst := by
      have := (List.nodup_append.mp hnd2).2.2
      intro hmem
      exact this hmem (List.mem_cons.mpr (Or.inl rfl))
    have hkrest : k ∉ rest.map Prod.fst :=
      (List.nodup_cons.mp (List.nodup_append.mp hnd2).2.1).1
    have hlk : lookupA (pre ++ (k, w) :: rest) k = some w := by
      rw [lookupA_append_not_mem k pre _ hkpre, lookupA, if_pos rfl]
    rw [List.map_cons, List.foldl_cons]
    by_cases hcnt : cfg.numEvents ≤ countL w
    · have hstep : freqCheckStep cfg ⟨pre ++ (k, w) :: rest, ms⟩ k =
          ⟨pre ++ rest, ms ++ [canonMatch (lastEvent w)]⟩ := by
        simp only [freqCheckStep, hlk, addMatch]
        rw [if_pos hcnt, removeA_append_not_mem k pre _ hkpre, removeA, if_pos rfl]
      rw [hstep, ih pre (ms ++ [canonMatch (lastEvent w)])
        (by
          rw [List.map_append, List.nodup_append]
          refine ⟨(List.nodup_append.mp hnd2).1,
            (List.nodup_cons.mp (List.nodup_append.mp hnd2).2.1).2, ?_⟩
          intro a ha hb
          exact (List.nodup_append.mp hnd2).2.2 ha (List.mem_cons.mpr (Or.inr hb)))]
      rw [List.filter_cons, List.filter_cons]
      rw [if_neg (by simpa using not_lt.mpr hcnt), if_pos (by simpa using hcnt)]
      simp
    · have hstep : freqCheckStep cfg ⟨pre ++ (k, w) :: rest, ms⟩ k =
          ⟨pre ++ (k, w) :: rest, ms⟩ := by
        simp only [freqCheckStep, hlk]
        rw [if_neg hcnt]
      have hshape : pre ++ (k, w) :: rest = (pre ++ [(k, w)]) ++ rest := by
        rw [List.append_assoc]; rfl
      rw [hstep, hshape, ih (pre ++ [(k, w)]) ms (by rw [← hshape]; exact hnd)]
      rw [List.filter_cons, List.filter_cons]
      rw [if_pos (by simpa using not_le.mp hcnt),
        if_neg (by simpa using not_le.mp hcnt)]
      simp

/-- Claim C3: after the match check of FrequencyRule (run after every
single append of each ingestion path), the keys whose window count
reached num_events are exactly the keys that were removed from
occurrences, and for each of them, in order, the newest event of its
window was appended (through add_match) to the match list; every
remaining key counts strictly below num_events. -/
theorem claim_C3_frequency_match (cfg : FreqConfig) (st : FreqState)
    (hnd : (st.occurrences.map Prod.fst).Nodup) :
    checkForMatch cfg st =
      ⟨st.occurrences.filter (fun kw => decide (countL kw.2 < cfg.numEvents)),
       st.matchList ++
         (st.occurrences.filter (fun kw => decide (cfg.numEvents ≤ countL kw.2))).map
           (fun kw => canonMatch (lastEvent kw.2))⟩ := by
  obtain ⟨occ, ms⟩ := st
  have h := freqCheck_loop cfg occ [] ms (by simpa using hnd)
  simpa [checkForMatch] using h

/-- Witness for claim C3 at a concrete over-threshold state. -/
theorem claim_C3_frequency_match_witness :
    checkForMatch cfgFreqW stFreqW = ⟨[], [canonMatch (lastEvent [(evW, 3)])]⟩ :=
  (claim_C3_frequency_match cfgFreqW stFreqW (by decide)).trans (by decide)

/-! ### Claim C4: SpikeRule.find_matches -/

theorem fdiv_le_iff_rat (cur ref h : Int) (hh : 0 < h) :
    (cur ≤ ref.fdiv h) ↔ ((cur : ℚ) ≤ (ref : ℚ) / (h : ℚ)) := by
  rw [Int.fdiv_eq_ediv _ (le_of_lt hh), Int.le_ediv_iff_mul_le hh,
    le_div_iff₀ (by exact_mod_cast hh)]
  exact_mod_cast Iff.rfl

theorem mul_le_iff_rat (cur ref h : Int) :
    (ref * h ≤ cur) ↔ ((ref : ℚ) * (h : ℚ) ≤ (cur : ℚ)) := by
  rw [show ((ref : ℚ) * (h : ℚ)) = ((ref * h : Int) : ℚ) by push_cast; ring]
  exact_mod_cast Iff.rfl

/-- Claim C4: find_matches accepts exactly when both thresholds (default
zero) pass and the configured direction fires, where spike up means
cur at least ref times spike_height and spike down means cur at most ref
divided by spike_height, the division read as EXACT division of the
counts. The source computes Python 2 integer (floor) division, which for
an integer cur and positive integer spike_height agrees with the exact
comparison; positivity of spike_height is assumed (it is a ratio). -/
theorem claim_C4_spike_find_matches (cfg : SpikeConfig) (ref cur : Int)
    (hh : 0 < cfg.spikeHeight) :
    findMatches cfg ref cur = true ↔
      (cfg.thresholdCur.getD 0 ≤ cur ∧ cfg.thresholdRef.getD 0 ≤ ref ∧
        (((cfg.spikeType = "up" ∨ cfg.spikeType = "both") ∧
            (ref : ℚ) * (cfg.spikeHeight : ℚ) ≤ (cur : ℚ)) ∨
         ((cfg.spikeType = "down" ∨ cfg.spikeType = "both") ∧
            (cur : ℚ) ≤ (ref : ℚ) / (cfg.spikeHeight : ℚ)))) := by
  rw [findMatches]
  by_cases ht : cur < cfg.thresholdCur.getD 0 ∨ ref < cfg.thresholdRef.getD 0
  · rw [if_pos ht]
    simp only [Bool.false_eq_true, false_iff]
    rintro ⟨h1, h2, -⟩
    rcases ht with h | h
    · exact absurd h1 (not_le.mpr h)
    · exact absurd h2 (not_le.mpr h)
  · rw [if_neg ht]
    push_neg at ht
    simp only [Bool.or_eq_true, Bool.and_eq_true, decide_eq_true_eq]
    rw [← fdiv_le_iff_rat cur ref cfg.spikeHeight hh,
      ← mul_le_iff_rat cur ref cfg.spikeHeight]
    constructor
    · rintro (⟨hd, hcmp⟩ | ⟨hd, hcmp⟩)
      · exact ⟨ht.1, ht.2, Or.inl ⟨hd.symm, hcmp⟩⟩
      · exact ⟨ht.1, ht.2, Or.inr ⟨hd.symm, hcmp⟩⟩
    · rintro ⟨-, -, (⟨hd, hcmp⟩ | ⟨hd, hcmp⟩)⟩
      · exact Or.inl ⟨hd.symm, hcmp⟩
      · exact Or.inr ⟨hd.symm, hcmp⟩

/-- Witness for claim C4: a triple spike with spike_type up fires. -/
theorem claim_C4_spike_find_matches_witness :
    findMatches cfgSpikeCx 1 3 = true :=
  (claim_C4_spike_find_matches cfgSpikeCx 1 3 (by decide)).mpr
    (by
      refine ⟨by norm_num [cfgSpikeCx], by norm_num [cfgSpikeCx],
        Or.inl ⟨Or.inl (by norm_num [cfgSpikeCx]), by norm_num [cfgSpikeCx]⟩⟩)

/-! ### Claim C9: add_count_data rejects non-singleton mappings -/

/-- Claim C9: for both rules implementing add_count_data (FrequencyRule
and SpikeRule), a mapping with more than one entry is rejected with the
EAException of the source before any state change (the model returns the
error without touching the state), and a one-entry mapping is accepted. -/
theorem claim_C9_count_data_shape (fcfg : FreqConfig) (fst0 : FreqState)
    (scfg : SpikeConfig) (sst : SpikeState) (data : List (Int × Int)) :
    (1 < data.length →
      freqAddCountData fcfg fst0 data =
        Except.error "add_count_data can only accept one count at a time" ∧
      spikeAddCountData scfg sst data =
        Except.error "add_count_data can only accept one count at a time") ∧
    (data.length = 1 →
      (freqAddCountData fcfg fst0 data).isOk = true ∧
      (spikeAddCountData scfg sst data).isOk = true) := by
  constructor
  · intro h
    refine ⟨?_, ?_⟩
    · rw [freqAddCountData, if_pos h]
    · rw [spikeAddCountData, if_pos h]
  · intro h
    have h2 : ¬ 1 < data.length := by omega
    constructor
    · rw [freqAddCountData, if_neg h2]; rfl
    · rw [spikeAddCountData, if_neg h2]; rfl

/-- Witness for claim C9: a two-entry mapping errors, a singleton is
accepted. -/
theorem claim_C9_count_data_shape_witness :
    freqAddCountData cfgFreqW freqInit [(0, 1), (1, 2)] =
      Except.error "add_count_data can only accept one count at a time" ∧
    (spikeAddCountData cfgSpikeCx spikeInit [(0, 1)]).isOk = true :=
  ⟨((claim_C9_count_data_shape cfgFreqW freqInit cfgSpikeCx spikeInit
      [(0, 1), (1, 2)]).1 (by decide)).1,
   ((claim_C9_count_data_shape cfgFreqW freqInit cfgSpikeCx spikeInit
      [(0, 1)]).2 (by decide)).2⟩

/-! ### Claim C8: timestamp canonicalisation of matches -/

/-- Counterexample to claim C8 as stated: AnyRule.add_data appends the
raw events to the match list without calling add_match, so a match whose
timestamp field holds a moment (not the canonical string) ends up in the
match list. -/
theorem claim_C8_counterexample :
    anyAddData [] [[("@timestamp", Value.vtime 5)]] = [[("@timestamp", Value.vtime 5)]] ∧
    ¬ ∃ t : Int,
        lookupRaw [("@timestamp", Value.vtime 5)] "@timestamp" =
          some (Value.vstr (canonStr t)) := by
  refine ⟨rfl, ?_⟩
  rintro ⟨t, h⟩
  rw [lookupRaw, lookupA, if_pos rfl] at h
  exact Value.noConfusion (Option.some.inj h)

/-- Claim C8, amended: every event appended to a match list through
add_match (the path used by every rule except the raw AnyRule.add_data
append) carries, at the literal field @timestamp, the canonical string
form of its moment, provided the field held a moment. -/
theorem claim_C8_add_match_canonical (ms : List Event) (ev : Event) (t : Int)
    (h : lookupRaw ev "@timestamp" = some (Value.vtime t)) :
    addMatch ms ev = ms ++ [setField ev "@timestamp" (Value.vstr (canonStr t))] ∧
    lookupRaw (canonMatch ev) "@timestamp" = some (Value.vstr (canonStr t)) := by
  have hc : canonMatch ev = setField ev "@timestamp" (Value.vstr (canonStr t)) := by
    simp [canonMatch, h, dtToTs]
  constructor
  · rw [addMatch, hc]
  · rw [hc, lookupRaw, setField]
    exact lookupA_insertA_self ev "@timestamp" (Value.vstr (canonStr t))

/-- Witness for the amended claim C8 at a concrete event. -/
theorem claim_C8_add_match_canonical_witness :
    addMatch [] evW = [setField evW "@timestamp" (Value.vstr (canonStr 5))] ∧
    lookupRaw (canonMatch evW) "@timestamp" = some (Value.vstr (canonStr 5)) := by
  have h := claim_C8_add_match_canonical [] evW 5 (by decide)
  exact ⟨h.1, h.2⟩

/-! ### Claim C7: ChangeRule -/

theorem changeCompare_skip (cfg : ChangeConfig) (st : ChangeState) (ev : Event)
    (hb : (falsyV (lookupES ev cfg.compareKey) && cfg.ignoreNull) = true) :
    changeCompare cfg st ev = (false, st) := by
  rw [changeCompare, if_pos hb]

theorem changeCompare_fst (cfg : ChangeConfig) (st : ChangeState) (ev : Event)
    (hb : (falsyV (lookupES ev cfg.compareKey) && cfg.ignoreNull) = false) :
    (changeCompare cfg st ev).1 = changeFlag cfg st ev := by
  rw [changeCompare, if_neg (by rw [hb]; exact Bool.false_ne_true), changeFlag]
  cases hlo : lookupA st.occurrences (lookupES ev cfg.queryKey) with
  | none => simp [hlo]
  | some old =>
    by_cases hov : old ≠ lookupES ev cfg.compareKey
    · cases hlt : lookupA st.occurrenceTime (lookupES ev cfg.queryKey) with
      | none => simp [hlo, hov, hlt]
      | some t => simp [hlo, hov, hlt]
    · simp [hlo, hov]

theorem changeCompare_state (cfg : ChangeConfig) (st : ChangeState) (ev : Event)
    (hb : (falsyV (lookupES ev cfg.compareKey) && cfg.ignoreNull) = false) :
    (changeCompare cfg st ev).2.occurrences =
      insertA st.occurrences (lookupES ev cfg.queryKey) (lookupES ev cfg.compareKey) ∧
    (changeCompare cfg st ev).2.occurrenceTime =
      (if cfg.timeframe.isSome then
        insertA st.occurrenceTime (lookupES ev cfg.queryKey) (evTs cfg.tsField ev)
       else st.occurrenceTime) ∧
    (changeCompare cfg st ev).2.matchList = st.matchList := by
  rw [changeCompare, if_neg (by rw [hb]; exact Bool.false_ne_true)]
  exact ⟨rfl, rfl, rfl⟩

theorem changeFlag_iff (cfg : ChangeConfig) (st : ChangeState) (ev : Event)
    (hwf : cfg.timeframe = none → st.occurrenceTime = []) :
    changeFlag cfg st ev = true ↔
      ∃ old, lookupA st.occurrences (lookupES ev cfg.queryKey) = some old ∧
        old ≠ lookupES ev cfg.compareKey ∧
        ∀ tprev, lookupA st.occurrenceTime (lookupES ev cfg.queryKey) = some tprev →
          ∃ tfv, cfg.timeframe = some tfv ∧ evTs cfg.tsField ev - tprev ≤ tfv := by
  cases hlo : lookupA st.occurrences (lookupES ev cfg.queryKey) with
  | none =>
    have hflag : changeFlag cfg st ev = false := by simp [changeFlag, hlo]
    rw [hflag]
    simp [hlo]
  | some old =>
    by_cases hov : old ≠ lookupES ev cfg.compareKey
    · cases hlt : lookupA st.occurrenceTime (lookupES ev cfg.queryKey) with
      | none =>
        have hflag : changeFlag cfg st ev = true := by simp [changeFlag, hlo, hov, hlt]
        rw [hflag]
        simp [hlo, hlt, hov]
      | some t =>
        obtain ⟨tfv, htfv⟩ : ∃ tfv, cfg.timeframe = some tfv := by
          cases htfc : cfg.timeframe with
          | none =>
            rw [hwf htfc] at hlt
            exact absurd hlt (by simp [lookupA])
          | some tfv => exact ⟨tfv, rfl⟩
        have hflag : changeFlag cfg st ev =
            decide (evTs cfg.tsField ev - t ≤ tfv) := by
          simp [changeFlag, hlo, hov, hlt, htfv]
        rw [hflag]
        simp only [decide_eq_true_eq, hlo, hlt, htfv]
        constructor
        · intro hle
          refine ⟨old, rfl, hov, ?_⟩
          intro tprev htp
          exact ⟨tfv, rfl, by rwa [← Option.some.inj htp]⟩
        · rintro ⟨old2, -, -, hall⟩
          obtain ⟨tfv2, htfv2, hle⟩ := hall t rfl
          rwa [← Option.some.inj htfv2] at hle
    · have hflag : changeFlag cfg st ev = false := by simp [changeFlag, hlo, hov]
      rw [hflag]
      push_neg at hov
      simp [hlo, hov]

/-- Counterexample to claim C7 as stated: with ignore_null off, an event
whose compare_key is missing stores a null for its key; a later non-null
value for the same key makes the source emit a match, although no
NON-NULL value was ever stored, so the claimed match condition is false
while the code matches. -/
theorem claim_C7_counterexample :
    (changeCompare cfgChangeCx stChangeCx cev2).1 = true ∧
    lookupA stChangeCx.occurrences (lookupES cev2 cfgChangeCx.queryKey) = some none ∧
    ¬ changeClaimCond cfgChangeCx stChangeCx cev2 := by
  refine ⟨by decide, by decide, ?_⟩
  rintro ⟨v, hv, -, -⟩
  have hl : lookupA stChangeCx.occurrences (lookupES cev2 cfgChangeCx.queryKey) =
      some none := by decide
  rw [hl] at hv
  exact Option.noConfusion (Option.some.inj hv)

/-- Claim C7, amended: on an event that is not skipped by the
ignore_null test, ChangeRule.compare returns true (and so the event is
emitted as a match by CompareRule.add_data) iff some value old (POSSIBLY
NULL, which the claim had excluded) is stored for the query key, old
differs from the newly observed value, and whenever a time is recorded
for the key the configured timeframe bounds the delta; and whether or not
the flag is true, the stored value is updated, the stored time is updated
exactly when timeframe is configured, and the match list is untouched by
compare. A skipped event leaves the state unchanged. The side condition
ties the model to runs of the source, where occurrence_time is only ever
written when timeframe is configured. -/
theorem claim_C7_change_semantics (cfg : ChangeConfig) (st : ChangeState) (ev : Event)
    (hwf : cfg.timeframe = none → st.occurrenceTime = []) :
    ((changeCompare cfg st ev).1 = true ↔
      ((falsyV (lookupES ev cfg.compareKey) && cfg.ignoreNull) = false ∧
        ∃ old, lookupA st.occurrences (lookupES ev cfg.queryKey) = some old ∧
          old ≠ lookupES ev cfg.compareKey ∧
          ∀ tprev, lookupA st.occurrenceTime (lookupES ev cfg.queryKey) = some tprev →
            ∃ tfv, cfg.timeframe = some tfv ∧ evTs cfg.tsField ev - tprev ≤ tfv)) ∧
    ((falsyV (lookupES ev cfg.compareKey) && cfg.ignoreNull) = false →
      (changeCompare cfg st ev).2.occurrences =
        insertA st.occurrences (lookupES ev cfg.queryKey) (lookupES ev cfg.compareKey) ∧
      (changeCompare cfg st ev).2.occurrenceTime =
        (if cfg.timeframe.isSome then
          insertA st.occurrenceTime (lookupES ev cfg.queryKey) (evTs cfg.tsField ev)
         else st.occurrenceTime) ∧
      (changeCompare cfg st ev).2.matchList = st.matchList) ∧
    ((falsyV (lookupES ev cfg.compareKey) && cfg.ignoreNull) = true →
      (changeCompare cfg st ev).2 = st) := by
  refine ⟨?_, fun hb => changeCompare_state cfg st ev hb, ?_⟩
  · cases hb : (falsyV (lookupES ev cfg.compareKey) && cfg.ignoreNull) with
    | true =>
      rw [changeCompare_skip cfg st ev hb]
      simp
    | false =>
      rw [changeCompare_fst cfg st ev hb, changeFlag_iff cfg st ev hwf]
      simp
  · intro hb
    rw [changeCompare_skip cfg st ev hb]

/-- Witness for the amended claim C7: the stored value is a null, the new
value differs, no timeframe is configured, and compare returns true. -/
theorem claim_C7_change_semantics_witness :
    (changeCompare cfgChangeCx stChangeCx cev2).1 = true := by
  have h := (claim_C7_change_semantics cfgChangeCx stChangeCx cev2 (fun _ => by decide)).1
  refine h.mpr ⟨by decide, none, by decide, by decide, ?_⟩
  intro tprev htp
  have hnone : lookupA stChangeCx.occurrenceTime (lookupES cev2 cfgChangeCx.queryKey) =
      (none : Option Int) := by decide
  rw [hnone] at htp
  exact Option.noConfusion htp

/-! ### Claim C5: FlatlineRule -/

theorem flatCheck_eq (cfg : FlatConfig) (w : List Entry) (fe : Option Int)
    (ms : List Event) :
    flatCheck cfg ⟨some w, fe, ms⟩ =
      (if entryTs cfg.tsField (w.getLastD dummyEntry) -
            fe.getD (entryTs cfg.tsField (w.getLastD dummyEntry)) < cfg.timeframe then
        ⟨some w, some (fe.getD (entryTs cfg.tsField (w.getLastD dummyEntry))), ms⟩
      else if countL w < cfg.threshold then
        ⟨none, none, addMatch ms (lastEvent w)⟩
      else ⟨some w, some (fe.getD (entryTs cfg.tsField (w.getLastD dummyEntry))), ms⟩) :=
  rfl

theorem insertWin_tail {α : Type} (ts : α → Int) (l : List α) (e : α)
    (h : ∀ x ∈ l, ts x ≤ ts e) : insertWin ts l e = l ++ [e] := by
  cases l with
  | nil => rfl
  | cons x xs =>
    rw [insertWin, if_pos (h (xs.getLastD x) (List.getLastD_mem_cons xs x))]

theorem evictLoop_concat_syn {α : Type} (tf : Int) (ts : α → Int) (syn : α)
    (now : Int) (hsyn : ts syn = now) (htf : 0 < tf) :
    ∀ w : List α, (∀ x ∈ w, ts x ≤ now - tf) →
      (evictLoop tf ts (w ++ [syn])).2 = [syn] := by
  intro w
  induction w with
  | nil =>
    intro _
    rw [List.nil_append, evictLoop,
      if_neg (by simp only [durL, List.getLastD_nil]; omega)]
  | cons x xs ih =>
    intro h
    rw [List.cons_append, evictLoop]
    have hd : durL ts (x :: (xs ++ [syn])) = now - ts x := by
      rw [durL, List.getLastD_concat, hsyn]
    rw [if_pos (by rw [hd]; have := h x (List.mem_cons.mpr (Or.inl rfl)); omega)]
    exact ih (fun y hy => h y (List.mem_cons.mpr (Or.inr hy)))

/-- Claim C5: after any append to the all window of a FlatlineRule (by
data ingestion or by the tick appending a synthetic zero-count entry),
the check emits a match exactly when the newest window timestamp minus
first-seen (taken as the newest timestamp itself when first-seen was
unset) is at least timeframe and the window count is strictly below the
threshold; on a match the emitted event is the newest entry of the
window, the window is discarded and first-seen is reset, and otherwise
the state only records first-seen. In particular, a tick at a time by
which every window entry is at least timeframe old and timeframe has
elapsed since first-seen deterministically fires on the synthetic
placeholder. -/
theorem claim_C5_flatline_semantics (cfg : FlatConfig) (st : FlatState) (en : Entry) :
    ((cfg.timeframe ≤
        entryTs cfg.tsField ((flatW cfg st en).getLastD dummyEntry) -
          st.firstEvent.getD (entryTs cfg.tsField ((flatW cfg st en).getLastD dummyEntry)) ∧
      countL (flatW cfg st en) < cfg.threshold) →
      flatStep cfg st en =
        ⟨none, none, addMatch st.matchList (lastEvent (flatW cfg st en))⟩) ∧
    (¬ (cfg.timeframe ≤
          entryTs cfg.tsField ((flatW cfg st en).getLastD dummyEntry) -
            st.firstEvent.getD (entryTs cfg.tsField ((flatW cfg st en).getLastD dummyEntry)) ∧
        countL (flatW cfg st en) < cfg.threshold) →
      flatStep cfg st en =
        ⟨some (flatW cfg st en),
         some (st.firstEvent.getD
           (entryTs cfg.tsField ((flatW cfg st en).getLastD dummyEntry))),
         st.matchList⟩) ∧
    (∀ (w : List Entry) (f now : Int),
      st.window = some w → st.firstEvent = some f →
      (∀ x ∈ w, entryTs cfg.tsField x ≤ now - cfg.timeframe) →
      cfg.timeframe ≤ now - f → 0 < cfg.threshold → 0 < cfg.timeframe →
      flatGC cfg st now =
        ⟨none, none, addMatch st.matchList [(cfg.tsField, Value.vtime now)]⟩) := by
  have hstep : flatStep cfg st en =
      flatCheck cfg ⟨some (flatW cfg st en), st.firstEvent, st.matchList⟩ := rfl
  refine ⟨?_, ?_, ?_⟩
  · rintro ⟨h1, h2⟩
    rw [hstep, flatCheck_eq, if_neg (not_lt.mpr h1), if_pos h2]
  · intro hno
    rw [hstep, flatCheck_eq]
    by_cases h1 : entryTs cfg.tsField ((flatW cfg st en).getLastD dummyEntry) -
        st.firstEvent.getD
          (entryTs cfg.tsField ((flatW cfg st en).getLastD dummyEntry)) < cfg.timeframe
    · rw [if_pos h1]
    · rw [if_neg h1]
      rw [if_neg (fun h2 => hno ⟨not_lt.mp h1, h2⟩)]
  · intro w f now hw hf hold htf hth htfpos
    have hsyn : entryTs cfg.tsField ([(cfg.tsField, Value.vtime now)], 0) = now := by
      simp [entryTs, evTs, lookupRaw, lookupA, valTs]
    have hW : flatW cfg st ([(cfg.tsField, Value.vtime now)], 0) =
        [([(cfg.tsField, Value.vtime now)], 0)] := by
      rw [flatW, hw, Option.getD_some, winAppend]
      rw [insertWin_tail (entryTs cfg.tsField) w _
        (fun x hx => by have := hold x hx; rw [hsyn]; omega)]
      exact evictLoop_concat_syn cfg.timeframe (entryTs cfg.tsField) _ now hsyn htfpos w hold
    have hgc : flatGC cfg st now =
        flatCheck cfg
          ⟨some (flatW cfg st ([(cfg.tsField, Value.vtime now)], 0)),
           st.firstEvent, st.matchList⟩ := rfl
    rw [hgc, hW, flatCheck_eq, hf]
    rw [show ([([(cfg.tsField, Value.vtime now)], 0)].getLastD dummyEntry) =
        (([(cfg.tsField, Value.vtime now)], 0) : Entry) from rfl]
    rw [hsyn, Option.getD_some]
    rw [if_neg (by omega)]
    rw [if_pos (by simp [countL]; omega)]
    rfl

/-- Witness for claim C5: one event at time 0, an append at time 11 with
threshold 5 and timeframe 10 evicts the old entry and fires on the new
one. -/
theorem claim_C5_flatline_semantics_witness :
    flatStep cfgFlatW stFlatW enFlatW =
      ⟨none, none, [[("@timestamp", Value.vstr "11")]]⟩ :=
  ((claim_C5_flatline_semantics cfgFlatW stFlatW enFlatW).1 (by decide)).trans (by decide)

/-! ### Claim C10: stored windows are never empty -/

theorem append_middle_ne_nil {α : Type} (ts : α → Int) (e : α) :
    ∀ l : List α, append_middle ts e l ≠ [] := by
  intro l
  cases l with
  | nil => simp [append_middle]
  | cons x xs =>
    rw [append_middle]
    split
    · exact List.cons_ne_nil _ _
    · show (match List.dropWhile (fun y => decide (ts e < ts y)) (x :: xs).reverse with
        | [] => x :: xs
        | r :: rs =>
          (List.takeWhile (fun y => decide (ts e < ts y)) (x :: xs).reverse ++
            e :: r :: rs).reverse) ≠ []
      split
      · exact List.cons_ne_nil _ _
      · simp

theorem insertWin_ne_nil {α : Type} (ts : α → Int) (l : List α) (e : α) :
    insertWin ts l e ≠ [] := by
  cases l with
  | nil => simp [insertWin]
  | cons x xs =>
    rw [insertWin]
    split
    · simp
    · exact append_middle_ne_nil ts e (x :: xs)

theorem evictLoop_ne_nil {α : Type} (tf : Int) (ts : α → Int) (htf : 0 < tf) :
    ∀ l : List α, l ≠ [] → (evictLoop tf ts l).2 ≠ [] := by
  intro l
  induction l with
  | nil => intro h; exact absurd rfl h
  | cons x xs ih =>
    intro _
    rw [evictLoop]
    split
    · next hguard =>
      cases xs with
      | nil =>
        exfalso
        simp only [durL, List.getLastD_nil] at hguard
        omega
      | cons y ys => exact ih (List.cons_ne_nil _ _)
    · exact List.cons_ne_nil _ _

theorem winAppend_ne_nil {α : Type} (tf : Int) (ts : α → Int) (htf : 0 < tf)
    (l : List α) (e : α) : (winAppend tf ts l e).1 ≠ [] :=
  evictLoop_ne_nil tf ts htf (insertWin ts l e) (insertWin_ne_nil ts l e)

theorem freqWF_append (cfg : FreqConfig) (st : FreqState) (k : Key) (en : Entry)
    (htf : 0 < cfg.timeframe) (hwf : FreqWF st) : FreqWF (freqAppend cfg st k en) := by
  intro kw hkw
  have hocc : (freqAppend cfg st k en).occurrences =
      insertA st.occurrences k
        ((winAppend cfg.timeframe (entryTs cfg.tsField)
          ((lookupA st.occurrences k).getD []) en).1) := rfl
  rw [hocc] at hkw
  rcases mem_insertA kw st.occurrences k _ hkw with h | h
  · exact hwf kw h
  · rw [h]
    exact winAppend_ne_nil cfg.timeframe (entryTs cfg.tsField) htf _ en

theorem freqWF_checkStep (cfg : FreqConfig) (acc : FreqState) (k : Key)
    (h : FreqWF acc) : FreqWF (freqCheckStep cfg acc k) := by
  rw [freqCheckStep]
  split
  · exact h
  · split
    · intro kw hkw
      exact h kw (mem_removeA kw _ _ hkw)
    · exact h

theorem freqWF_check (cfg : FreqConfig) (st : FreqState) (h : FreqWF st) :
    FreqWF (checkForMatch cfg st) := by
  rw [checkForMatch]
  generalize st.occurrences.map Prod.fst = K
  induction K generalizing st with
  | nil => exact h
  | cons k K ih => exact ih (freqCheckStep cfg st k) (freqWF_checkStep cfg st k h)

theorem freqWF_foldl {β : Type} (f : FreqState → β → FreqState)
    (hf : ∀ st b, FreqWF st → FreqWF (f st b)) :
    ∀ (ds : List β) (st : FreqState), FreqWF st → FreqWF (ds.foldl f st) := by
  intro ds
  induction ds with
  | nil => intro st h; exact h
  | cons d ds ih => intro st h; exact ih (f st d) (hf st d h)

theorem freqWF_addData (cfg : FreqConfig) (htf : 0 < cfg.timeframe)
    (st : FreqState) (events : List Event) (h : FreqWF st) :
    FreqWF (freqAddData cfg st events) :=
  freqWF_foldl _
    (fun st2 ev h2 =>
      freqWF_check cfg _ (freqWF_append cfg st2 (freqKey cfg ev) (ev, 1) htf h2))
    events st h

theorem freqWF_addCount (cfg : FreqConfig) (htf : 0 < cfg.timeframe)
    (st st2 : FreqState) (data : List (Int × Int))
    (hok : freqAddCountData cfg st data = Except.ok st2) (h : FreqWF st) :
    FreqWF st2 := by
  rw [freqAddCountData] at hok
  split at hok
  · exact absurd hok (by simp)
  · rw [← Except.ok.inj hok]
    exact freqWF_foldl _
      (fun st3 tc h3 => freqWF_check cfg _ (freqWF_append cfg st3 kall _ htf h3))
      data st h

theorem freqWF_addTerms (cfg : FreqConfig) (htf : 0 < cfg.timeframe)
    (st : FreqState) (terms : List (Int × List (Value × Int))) (h : FreqWF st) :
    FreqWF (freqAddTermsData cfg st terms) :=
  freqWF_foldl _
    (fun st2 tb h2 =>
      freqWF_foldl _
        (fun st3 bucket h3 =>
          freqWF_check cfg _ (freqWF_append cfg st3 (some bucket.1) _ htf h3))
        tb.2 st2 h2)
    terms st h

theorem freqWF_gc (cfg : FreqConfig) (st : FreqState) (now : Int) (h : FreqWF st) :
    FreqWF (freqGC cfg st now) := by
  intro kw hkw
  exact h kw (mem_foldl_removeA kw _ st.occurrences hkw)

theorem flatWF_step (cfg : FlatConfig) (htf : 0 < cfg.timeframe)
    (st : FlatState) (en : Entry) : FlatWF (flatStep cfg st en) := by
  have hstep : flatStep cfg st en =
      flatCheck cfg ⟨some (flatW cfg st en), st.firstEvent, st.matchList⟩ := rfl
  have hne : flatW cfg st en ≠ [] :=
    winAppend_ne_nil cfg.timeframe (entryTs cfg.tsField) htf _ en
  rw [hstep, flatCheck_eq]
  split
  · intro w hw
    rw [← Option.some.inj hw]
    exact hne
  · split
    · intro w hw
      exact absurd hw (by simp)
    · intro w hw
      rw [← Option.some.inj hw]
      exact hne

theorem flatWF_foldl {β : Type} (f : FlatState → β → FlatState)
    (hf : ∀ st b, FlatWF (f st b)) :
    ∀ (ds : List β) (st : FlatState), FlatWF st → FlatWF (ds.foldl f st) := by
  intro ds
  induction ds with
  | nil => intro st h; exact h
  | cons d ds ih => intro st h; exact ih (f st d) (hf st d)

theorem flatWF_addCount (cfg : FlatConfig) (htf : 0 < cfg.timeframe)
    (st st2 : FlatState) (data : List (Int × Int))
    (hok : flatAddCountData cfg st data = Except.ok st2) (h : FlatWF st) : FlatWF st2 := by
  rw [flatAddCountData] at hok
  split at hok
  · exact absurd hok (by simp)
  · rw [← Except.ok.inj hok]
    exact flatWF_foldl _ (fun st3 tc => flatWF_step cfg htf st3 _) data st h

/-- Claim C10: from construction, after any sequence of public
operations, every window a FrequencyRule stores in occurrences is
non-empty, and the all window of a FlatlineRule, when present, is
non-empty; hence the newest-entry reads (data[-1]) of check_for_match
and garbage_collect are always in bounds. Requires a positive timeframe
(with which an append always leaves at least its newest entry). -/
theorem claim_C10_windows_nonempty :
    (∀ (cfg : FreqConfig) (st : FreqState),
      0 < cfg.timeframe → FreqReach cfg st → FreqWF st) ∧
    (∀ (cfg : FlatConfig) (st : FlatState),
      0 < cfg.timeframe → FlatReach cfg st → FlatWF st) := by
  constructor
  · intro cfg st htf hr
    induction hr with
    | init => intro kw hkw; exact absurd hkw (by simp [freqInit])
    | addData st0 events hr0 ih => exact freqWF_addData cfg htf st0 events ih
    | addCount st0 st2 data hr0 hok ih => exact freqWF_addCount cfg htf st0 st2 data hok ih
    | addTerms st0 terms hr0 ih => exact freqWF_addTerms cfg htf st0 terms ih
    | gc st0 now hr0 ih => exact freqWF_gc cfg st0 now ih
  · intro cfg st htf hr
    induction hr with
    | init => intro w hw; exact absurd hw (by simp [flatInit])
    | addData st0 events hr0 ih =>
      exact flatWF_foldl _ (fun st3 ev => flatWF_step cfg htf st3 _) events st0 ih
    | addCount st0 st2 data hr0 hok ih => exact flatWF_addCount cfg htf st0 st2 data hok ih
    | gc st0 now hr0 ih => exact flatWF_step cfg htf st0 _

/-- Witness for claim C10 at concrete reachable states. -/
theorem claim_C10_windows_nonempty_witness :
    FreqWF (freqAddData cfgFreqW freqInit [evW]) ∧ FlatWF flatInit :=
  ⟨claim_C10_windows_nonempty.1 cfgFreqW _ (by decide)
     (FreqReach.addData freqInit [evW] FreqReach.init),
   claim_C10_windows_nonempty.2 cfgFlatW flatInit (by decide) FlatReach.init⟩

/-! ### Claim C6: SpikeRule.garbage_collect -/

theorem insertA_insertA {κ α : Type} [DecidableEq κ] :
    ∀ (m : List (κ × α)) (k : κ) (a b : α),
      insertA (insertA m k a) k b = insertA m k b := by
  intro m
  induction m with
  | nil => intro k a b; simp [insertA]
  | cons kv rest ih =>
    intro k a b
    by_cases h : kv.1 = k
    · simp [insertA, h]
    · simp [insertA, h, ih]

theorem lookupA_isSome_of_mem_keys {κ α : Type} [DecidableEq κ] :
    ∀ (m : List (κ × α)) (k : κ), k ∈ m.map Prod.fst → (lookupA m k).isSome = true := by
  intro m
  induction m with
  | nil => intro k h; simp at h
  | cons kv rest ih =>
    intro k h
    by_cases h2 : kv.1 = k
    · simp [lookupA, h2]
    · rw [lookupA, if_neg h2]
      rw [List.map_cons] at h
      rcases List.mem_cons.mp h with h3 | h3
      · exact absurd h3.symm h2
      · exact ih k h3

theorem spikeEval_removeA (cfg : SpikeConfig) (k2 qk : Value) (hne : k2 ≠ qk)
    (W : List (Value × SpikeWindows)) (fe : List (Value × Event)) (fl : Bool)
    (ms : List Event) :
    spikeEval cfg ⟨removeA W k2, fe, fl, ms⟩ qk =
      ⟨removeA (spikeEval cfg ⟨W, fe, fl, ms⟩ qk).windows k2,
       (spikeEval cfg ⟨W, fe, fl, ms⟩ qk).firstEvent,
       (spikeEval cfg ⟨W, fe, fl, ms⟩ qk).refFilledOnce,
       (spikeEval cfg ⟨W, fe, fl, ms⟩ qk).matchList⟩ := by
  have hkw : lookupA (removeA W k2) qk = lookupA W qk :=
    lookupA_removeA_ne qk W k2 (Ne.symm hne)
  by_cases hfm : findMatches cfg (countL ((lookupA W qk).getD ⟨[], []⟩).ref)
      (countL ((lookupA W qk).getD ⟨[], []⟩).cur) = true
  · simp only [spikeEval, hkw, hfm, if_true]
    rw [insertA_removeA_comm k2 W qk ⟨[], []⟩ hne]
  · simp only [spikeEval, hkw, hfm, if_false, Bool.false_eq_true]

theorem handleEvent_removeA (cfg : SpikeConfig) (k2 qk : Value) (hne : k2 ≠ qk)
    (W : List (Value × SpikeWindows)) (fe0 : List (Value × Event)) (fl : Bool)
    (ms : List Event) (ev : Event) (c : Int) :
    handleEvent cfg ⟨removeA W k2, fe0, fl, ms⟩ ev c qk =
      ⟨removeA (handleEvent cfg ⟨W, fe0, fl, ms⟩ ev c qk).windows k2,
       (handleEvent cfg ⟨W, fe0, fl, ms⟩ ev c qk).firstEvent,
       (handleEvent cfg ⟨W, fe0, fl, ms⟩ ev c qk).refFilledOnce,
       (handleEvent cfg ⟨W, fe0, fl, ms⟩ ev c qk).matchList⟩ := by
  have hkw : lookupA (removeA W k2) qk = lookupA W qk :=
    lookupA_removeA_ne qk W k2 (Ne.symm hne)
  by_cases h1 : evTs cfg.tsField ev -
      evTs cfg.tsField ((lookupA (setdefaultA fe0 qk ev) qk).getD ev) < cfg.timeframe * 2
  · by_cases h2 : ((qkTruthy cfg && cfg.alertOnNewData) && fl) = true
    · simp only [handleEvent, hkw, if_pos h1, h2, if_true]
      rw [insertA_removeA_comm k2 W qk _ hne]
      exact spikeEval_removeA cfg k2 qk hne (insertA W qk _) _ fl ms
    · simp only [handleEvent, hkw, if_pos h1, h2, Bool.false_eq_true, if_false]
      rw [insertA_removeA_comm k2 W qk _ hne]
  · simp only [handleEvent, hkw, if_neg h1]
    rw [insertA_removeA_comm k2 W qk _ hne]
    exact spikeEval_removeA cfg k2 qk hne (insertA W qk _) _ true ms

theorem spikeEval_windows_shape (cfg : SpikeConfig) (qk : Value)
    (W : List (Value × SpikeWindows)) (w1 : SpikeWindows) (fe : List (Value × Event))
    (fl : Bool) (ms : List Event) :
    ∃ v, (spikeEval cfg ⟨insertA W qk w1, fe, fl, ms⟩ qk).windows = insertA W qk v := by
  by_cases hfm : findMatches cfg
      (countL ((lookupA (insertA W qk w1) qk).getD ⟨[], []⟩).ref)
      (countL ((lookupA (insertA W qk w1) qk).getD ⟨[], []⟩).cur) = true
  · simp only [spikeEval, hfm, if_true]
    exact ⟨⟨[], []⟩, insertA_insertA W qk w1 ⟨[], []⟩⟩
  · simp only [spikeEval, hfm, Bool.false_eq_true, if_false]
    exact ⟨w1, rfl⟩

theorem handleEvent_windows_shape (cfg : SpikeConfig) (qk : Value)
    (W : List (Value × SpikeWindows)) (fe0 : List (Value × Event)) (fl : Bool)
    (ms : List Event) (ev : Event) (c : Int) :
    ∃ v, (handleEvent cfg ⟨W, fe0, fl, ms⟩ ev c qk).windows = insertA W qk v := by
  by_cases h1 : evTs cfg.tsField ev -
      evTs cfg.tsField ((lookupA (setdefaultA fe0 qk ev) qk).getD ev) < cfg.timeframe * 2
  · by_cases h2 : ((qkTruthy cfg && cfg.alertOnNewData) && fl) = true
    · simp only [handleEvent, if_pos h1, h2, if_true]
      exact spikeEval_windows_shape cfg qk W _ _ fl ms
    · simp only [handleEvent, if_pos h1, h2, Bool.false_eq_true, if_false]
      exact ⟨_, rfl⟩
  · simp only [handleEvent, if_neg h1]
    exact spikeEval_windows_shape cfg qk W _ _ true ms

theorem handleEvent_lookup_ne (cfg : SpikeConfig) (k2 qk : Value) (hne : k2 ≠ qk)
    (W : List (Value × SpikeWindows)) (fe0 : List (Value × Event)) (fl : Bool)
    (ms : List Event) (ev : Event) (c : Int) :
    lookupA (handleEvent cfg ⟨W, fe0, fl, ms⟩ ev c qk).windows k2 = lookupA W k2 := by
  obtain ⟨v, hv⟩ := handleEvent_windows_shape cfg qk W fe0 fl ms ev c
  rw [hv]
  exact lookupA_insertA_ne k2 W qk v hne

theorem handleEvent_foldl_removeA (cfg : SpikeConfig) (qk : Value) (ev : Event) (c : Int) :
    ∀ S : List Value, (∀ x ∈ S, x ≠ qk) →
      ∀ (W : List (Value × SpikeWindows)) (fe0 : List (Value × Event)) (fl : Bool)
        (ms : List Event),
      handleEvent cfg ⟨S.foldl removeA W, fe0, fl, ms⟩ ev c qk =
        ⟨S.foldl removeA (handleEvent cfg ⟨W, fe0, fl, ms⟩ ev c qk).windows,
         (handleEvent cfg ⟨W, fe0, fl, ms⟩ ev c qk).firstEvent,
         (handleEvent cfg ⟨W, fe0, fl, ms⟩ ev c qk).refFilledOnce,
         (handleEvent cfg ⟨W, fe0, fl, ms⟩ ev c qk).matchList⟩ := by
  intro S
  induction S with
  | nil => intro _ W fe0 fl ms; rfl
  | cons x S ih =>
    intro hS W fe0 fl ms
    rw [List.foldl_cons, ih (fun y hy => hS y (List.mem_cons.mpr (Or.inr hy)))
      (removeA W x) fe0 fl ms]
    rw [handleEvent_removeA cfg x qk (hS x (List.mem_cons.mpr (Or.inl rfl))) W fe0 fl ms ev c]
    rw [List.foldl_cons]

theorem spikeGC_loop (cfg : SpikeConfig) (now : Int) (st : SpikeState) :
    ∀ (K : List Value) (acc : SpikeState),
      K.Nodup →
      (∀ qk ∈ K, lookupA acc.windows qk = lookupA st.windows qk) →
      (∀ qk ∈ K, (lookupA st.windows qk).isSome = true) →
      K.foldl (spikeGCStep cfg now) acc =
        (K.filter (fun k => !deadIn st k)).foldl
          (fun a qk => handleEvent cfg a (spikePlaceholder cfg now qk) 0 qk)
          ⟨(K.filter (fun k => deadIn st k)).foldl removeA acc.windows,
           acc.firstEvent, acc.refFilledOnce, acc.matchList⟩ := by
  intro K
  induction K with
  | nil => intro acc _ _ _; rfl
  | cons k K ih =>
    intro acc hnd hinv hsome
    obtain ⟨Wa, fea, fla, msa⟩ := acc
    obtain ⟨kw, hkw⟩ : ∃ kw, lookupA st.windows k = some kw := by
      cases hcase : lookupA st.windows k with
      | none =>
        have := hsome k (List.mem_cons.mpr (Or.inl rfl))
        rw [hcase] at this
        exact absurd this (by simp)
      | some kw => exact ⟨kw, rfl⟩
    have hlacc : lookupA Wa k = some kw := by
      have := hinv k (List.mem_cons.mpr (Or.inl rfl))
      rwa [hkw] at this
    have hdead : deadIn st k = deadKW k kw := by rw [deadIn, hkw]
    have hknotK : k ∉ K := (List.nodup_cons.mp hnd).1
    have hstep : spikeGCStep cfg now ⟨Wa, fea, fla, msa⟩ k =
        (if deadKW k kw then
          ⟨removeA Wa k, fea, fla, msa⟩
        else handleEvent cfg ⟨Wa, fea, fla, msa⟩ (spikePlaceholder cfg now k) 0 k) := by
      simp only [spikeGCStep, hlacc]
    rw [List.foldl_cons, hstep]
    by_cases hd : deadKW k kw = true
    · rw [if_pos hd]
      rw [ih ⟨removeA Wa k, fea, fla, msa⟩ (List.nodup_cons.mp hnd).2
        (by
          intro qk hqk
          have hneq : qk ≠ k := fun h => hknotK (h ▸ hqk)
          rw [show (⟨removeA Wa k, fea, fla, msa⟩ : SpikeState).windows = removeA Wa k
            from rfl]
          rw [lookupA_removeA_ne qk Wa k hneq]
          exact hinv qk (List.mem_cons.mpr (Or.inr hqk)))
        (fun qk hqk => hsome qk (List.mem_cons.mpr (Or.inr hqk)))]
      rw [List.filter_cons, List.filter_cons]
      rw [if_pos (by rw [hdead]; exact hd), if_neg (by rw [hdead, hd]; simp)]
      rw [List.foldl_cons]
    · have hd2 : deadKW k kw = false := by
        cases hcase : deadKW k kw with
        | true => exact absurd hcase hd
        | false => rfl
      rw [if_neg (by rw [hd2]; exact Bool.false_ne_true)]
      rw [ih (handleEvent cfg ⟨Wa, fea, fla, msa⟩ (spikePlaceholder cfg now k) 0 k)
        (List.nodup_cons.mp hnd).2
        (by
          intro qk hqk
          have hneq : qk ≠ k := fun h => hknotK (h ▸ hqk)
          rw [handleEvent_lookup_ne cfg qk k hneq Wa fea fla msa _ 0]
          exact hinv qk (List.mem_cons.mpr (Or.inr hqk)))
        (fun qk hqk => hsome qk (List.mem_cons.mpr (Or.inr hqk)))]
      rw [List.filter_cons, List.filter_cons]
      rw [if_neg (by rw [hdead, hd2]; simp), if_pos (by rw [hdead, hd2]; simp)]
      rw [List.foldl_cons]
      have hSne : ∀ x ∈ K.filter (fun k3 => deadIn st k3), x ≠ k := by
        intro x hx
        exact fun h => hknotK (h ▸ List.mem_of_mem_filter hx)
      rw [handleEvent_foldl_removeA cfg k (spikePlaceholder cfg now k) 0
        (K.filter (fun k3 => deadIn st k3)) hSne Wa fea fla msa]

/-- Claim C6, amended: SpikeRule.garbage_collect is the tick that, for
each tracked key in order, forgets the key (removing both windows) when
the key is not all and both its windows COUNT ZERO (the source tests
count() == 0, not emptiness: a window holding only zero-count
placeholders counts zero yet is non-empty), and otherwise runs the
zero-count placeholder carrying the tick timestamp (plus the query_key
field when the key is not all) through handle_event, the normal ingestion
path. Stated as equality with the declarative form that first removes all
zero-count keys, judged on the incoming state, and then ingests the
placeholder for each surviving key in order. -/
theorem claim_C6_spike_gc (cfg : SpikeConfig) (st : SpikeState) (now : Int)
    (hnd : (st.windows.map Prod.fst).Nodup) :
    spikeGC cfg st now = spikeGCSpec cfg st now := by
  rw [spikeGC, spikeGCSpec]
  obtain ⟨W, fe, fl, ms⟩ := st
  exact spikeGC_loop cfg now ⟨W, fe, fl, ms⟩ (W.map Prod.fst) ⟨W, fe, fl, ms⟩ hnd
    (fun _ _ => rfl)
    (fun qk hqk => lookupA_isSome_of_mem_keys W qk hqk)

/-- Witness for the amended claim C6 at a concrete state holding a
zero-count, non-empty window. -/
theorem claim_C6_spike_gc_witness :
    spikeGC cfgSpikeCx stSpikeCx 1 = spikeGCSpec cfgSpikeCx stSpikeCx 1 :=
  claim_C6_spike_gc cfgSpikeCx stSpikeCx 1 (by decide)

/-- Counterexample to claim C6 as stated: the key k holds a current
window with one zero-count entry, so its windows are NOT both empty; the
claimed tick (forget only when both windows are empty) keeps the key and
ingests a placeholder, but the source tests count() == 0 and forgets the
key. -/
theorem claim_C6_counterexample :
    lookupA stSpikeCx.windows (Value.vstr "k") =
      some ⟨[], [([("@timestamp", Value.vtime 0), ("qk", Value.vstr "k")], 0)]⟩ ∧
    spikeGC cfgSpikeCx stSpikeCx 1 ≠ spikeGCClaim cfgSpikeCx stSpikeCx 1 ∧
    lookupA (spikeGC cfgSpikeCx stSpikeCx 1).windows (Value.vstr "k") = none ∧
    lookupA (spikeGCClaim cfgSpikeCx stSpikeCx 1).windows (Value.vstr "k") ≠ none :=
  ⟨by decide, by decide, by decide, by decide⟩

end ElastAlert
